import Mathlib

/-!
# NiFi FlowFile v3: the serialize / deserialize protocol

A shallow embedding of `flowfile/flowfile_v3.go`.

* A Go `io.Reader` is a state with a `Read` step, a Go `io.Writer` a state with a
  `Write` step; `bytes.Buffer` is the instance used by the repository's test.
* A Go `int` that holds a length or a count is a natural number (`len(...)` and
  the decoded `uint16` / `uint32` values are never negative; `int` has 64 bits);
  the conversions `uint16(x)`, `uint32(x)`, `uint64(x)` are explicit remainders.
* `map[string]string` is a list of key/value pairs with distinct keys; the list
  order stands for the order in which one `range` statement visits the entries,
  which Go leaves unspecified.
* A call either returns (a value or a Go `error`), panics, or does not return;
  see `Fault`.
-/

namespace flowfile

/-! ## Bytes, errors, outcomes -/

/-- A Go `byte`. -/
abbrev Byte := Fin 256

/-- A Go `string` or `[]byte`: a sequence of bytes. -/
abbrev Str := List Byte

/-- The conversion `byte(n)`: the low eight bits. -/
def byte (n : Nat) : Byte := ⟨n % 256, Nat.mod_lt n (by decide)⟩

/-- The Go `error` values that occur: `io.EOF`, `io.ErrUnexpectedEOF`, the
package variable `badHeaderV3`, and any other error a reader or writer reports. -/
inductive Error where
  | EOF
  | ErrUnexpectedEOF
  | badHeaderV3
  | other (code : Nat)
  deriving DecidableEq, Repr

/-- The ways a call can fail to produce its value: it returns a non-nil `error`,
it panics, or it never returns (the fuel of `ReadFull` ran out). -/
inductive Fault where
  | returned (err : Error)
  | panic
  | diverge
  deriving DecidableEq, Repr

/-- The result of a call that yields an `α` and an `error`. -/
inductive Outcome (α : Type) where
  | ok (a : α)
  | fail (f : Fault)
  deriving DecidableEq, Repr

/-- The method `Error()` of the errors whose text is fixed; `badHeaderV3` is
`errors.New("Not a NiFi v3 FlowFile")`. -/
def Error.message : Error → Option String
  | .EOF => some "EOF"
  | .ErrUnexpectedEOF => some "unexpected EOF"
  | .badHeaderV3 => some "Not a NiFi v3 FlowFile"
  | .other _ => none

/-- A truncated-input error: `io.EOF` or `io.ErrUnexpectedEOF`. -/
def Error.isTruncated : Error → Bool
  | .EOF => true
  | .ErrUnexpectedEOF => true
  | _ => false

/-! ## Readers and writers -/

/-- An `io.Reader` with state `σ`. `Read s n` is the call `Read(p)` with
`len(p) = n`: it yields the bytes stored into `p` (their number is the returned
count, at most `n`), the returned error (`none` for nil) and the next state. -/
structure Reader (σ : Type) where
  Read : σ → Nat → (List Byte × Option Error) × σ

/-- An `io.Writer` with state `τ`. `Write t p` yields the returned error and the
next state; the returned count is not used by this package. -/
structure Writer (τ : Type) where
  Write : τ → List Byte → Option Error × τ

/-- A `bytes.Buffer`: its unread bytes. -/
abbrev Buffer := List Byte

/-- The method `(*bytes.Buffer).Read`: on an empty buffer it returns `(0, nil)` for
an empty `p` and `(0, io.EOF)` otherwise; on a non-empty buffer it copies as many
bytes as fit and returns their number and nil. -/
def Buffer.Read (b : Buffer) (n : Nat) : (List Byte × Option Error) × Buffer :=
  if b = [] then
    if n = 0 then (([], none), []) else (([], some Error.EOF), [])
  else ((b.take n, none), b.drop n)

/-- The method `(*bytes.Buffer).Write`: appends and returns nil. -/
def Buffer.Write (b : Buffer) (p : List Byte) : Option Error × Buffer :=
  (none, b ++ p)

/-- A `*bytes.Buffer` used as an `io.Reader`. -/
def bufferReader : Reader Buffer := ⟨Buffer.Read⟩

/-- A `*bytes.Buffer` used as an `io.Writer`. -/
def bufferWriter : Writer Buffer := ⟨Buffer.Write⟩

/-- The call `io.ReadFull(r, buf)` with `len(buf) = size`, started with `buf`
holding the bytes read so far. The loop `for n < min && err == nil` reads again
while fewer than `size` bytes are there and no error was returned; afterwards
the error is nil when `size` bytes are there, `io.ErrUnexpectedEOF` when some
but not all bytes were read before `io.EOF`, and the reader's error otherwise.
Each turn of the loop costs one unit of fuel. -/
def ReadFull {σ : Type} (R : Reader σ) (size : Nat) : Nat → σ → List Byte → Outcome (List Byte) × σ
  | 0, s, buf => if size ≤ buf.length then (.ok buf, s) else (.fail .diverge, s)
  | fuel + 1, s, buf =>
    if size ≤ buf.length then (.ok buf, s)
    else
      let r := R.Read s (size - buf.length)
      match r.1.2 with
      | none => ReadFull R size fuel r.2 (buf ++ r.1.1)
      | some err =>
        if size ≤ (buf ++ r.1.1).length then (.ok (buf ++ r.1.1), r.2)
        else if 0 < (buf ++ r.1.1).length ∧ err = Error.EOF then
          (.fail (.returned Error.ErrUnexpectedEOF), r.2)
        else (.fail (.returned err), r.2)

/-- The value `binary.BigEndian.UintN(bs)`: the bytes as a big-endian number. -/
def bigEndian (bs : List Byte) : Nat :=
  bs.foldl (fun acc b => acc * 256 + b.val) 0

/-- The bytes of `binary.BigEndian.PutUint16`. -/
def putUint16 (v : Nat) : List Byte := [byte (v / 2 ^ 8), byte v]

/-- The bytes of `binary.BigEndian.PutUint32`. -/
def putUint32 (v : Nat) : List Byte :=
  [byte (v / 2 ^ 24), byte (v / 2 ^ 16), byte (v / 2 ^ 8), byte v]

/-- The bytes of `binary.BigEndian.PutUint64`. -/
def putUint64 (v : Nat) : List Byte :=
  [byte (v / 2 ^ 56), byte (v / 2 ^ 48), byte (v / 2 ^ 40), byte (v / 2 ^ 32),
   byte (v / 2 ^ 24), byte (v / 2 ^ 16), byte (v / 2 ^ 8), byte v]

/-- The call `binary.Read(in, binary.BigEndian, &x)` for an unsigned integer `x`
of `size` bytes: `io.ReadFull` of `size` bytes, whose error is returned as it
is, then the big-endian decoding. -/
def binaryRead {σ : Type} (R : Reader σ) (fuel : Nat) (s : σ) (size : Nat) : Outcome Nat × σ :=
  match ReadFull R size fuel s [] with
  | (.ok bs, s1) => (.ok (bigEndian bs), s1)
  | (.fail f, s1) => (.fail f, s1)

/-- The call `binary.Write(out, binary.BigEndian, x)` for an unsigned integer whose
big-endian bytes are `bs`: one `Write` of the bytes, whose error is returned. -/
def binaryWrite {τ : Type} (W : Writer τ) (out : τ) (bs : List Byte) : Option Error × τ :=
  W.Write out bs

/-- The largest size `make` accepts (the runtime constant `maxAlloc` of 64-bit
platforms such as linux/amd64, `1 << 48`). -/
def maxAlloc : Nat := 2 ^ 48

/-- Whether `make([]byte, n)` panics for a length `n ≥ 0`: `n` is beyond `maxAlloc`. -/
def makePanics (n : Nat) : Bool := decide (maxAlloc < n)

/-! ## The FlowFile entity -/

/-- A `map[string]string`: its entries, keys distinct. -/
abbrev AttrMap := List (Str × Str)

/-- The lookup `m[key]`, `none` when the key is absent. -/
def mapGet : AttrMap → Str → Option Str
  | [], _ => none
  | (k, v) :: m, key => if k = key then some v else mapGet m key

/-- The assignment `m[key] = value`: replaces the value of a present key, adds
the entry for an absent one. -/
def mapSet : AttrMap → Str → Str → AttrMap
  | [], key, value => [(key, value)]
  | (k, v) :: m, key, value =>
    if k = key then (k, value) :: m else (k, v) :: mapSet m key value

/-- The keys of a map, in the order of its entries. -/
def mapKeys (m : AttrMap) : List Str := m.map Prod.fst

/-- Equality of maps as Go values (what `assert.Equal` compares): the same number
of entries and the same value under every key. -/
def mapEqual (m1 m2 : AttrMap) : Prop :=
  m1.length = m2.length ∧ ∀ key, mapGet m1 key = mapGet m2 key

/-- The struct `FlowFileV3`. -/
structure FlowFileV3 where
  attributes : AttrMap
  content : List Byte
  deriving DecidableEq, Repr

/-- The variable `magicHeaderV3`: the bytes of "NiFiFF3". -/
def magicHeaderV3 : List Byte := [78, 105, 70, 105, 70, 70, 51]

/-- The constructor `NewFlowFileV3`. -/
def NewFlowFileV3 : FlowFileV3 := { attributes := [], content := [] }

/-- The method `GetAttribute`: the value and whether the key is present. -/
def FlowFileV3.GetAttribute (ff : FlowFileV3) (key : Str) : Str × Bool :=
  match mapGet ff.attributes key with
  | some value => (value, true)
  | none => ([], false)

/-- The method `GetAttributes`. -/
def FlowFileV3.GetAttributes (ff : FlowFileV3) : AttrMap := ff.attributes

/-- The method `SetAttributes`; the result is the receiver after the call. -/
def FlowFileV3.SetAttributes (ff : FlowFileV3) (attributes : AttrMap) : FlowFileV3 :=
  { ff with attributes := attributes }

/-- The method `GetContent`. -/
def FlowFileV3.GetContent (ff : FlowFileV3) : List Byte := ff.content

/-- The method `SetContent`; the result is the receiver after the call. -/
def FlowFileV3.SetContent (ff : FlowFileV3) (content : List Byte) : FlowFileV3 :=
  { ff with content := content }

/-! ## The codecs -/

/-- The function `validateHeader`: one `Read` of 7 bytes; the reader's error is
returned as it is, a count other than 7 gives `io.EOF`, other bytes than the
magic marker give `badHeaderV3`. -/
def validateHeader {σ : Type} (R : Reader σ) (s : σ) : Outcome Unit × σ :=
  let r := R.Read s magicHeaderV3.length
  match r.1.2 with
  | some err => (.fail (.returned err), r.2)
  | none =>
    if r.1.1.length ≠ magicHeaderV3.length then (.fail (.returned Error.EOF), r.2)
    else if r.1.1 ≠ magicHeaderV3 then (.fail (.returned Error.badHeaderV3), r.2)
    else (.ok (), r.2)

/-- The function `writeHeader`. -/
def writeHeader {τ : Type} (W : Writer τ) (out : τ) : Option Error × τ :=
  W.Write out magicHeaderV3

/-- The function `readLength`: a big-endian `uint16`; the value `0xffff` announces
a big-endian `uint32` that is the length. (On an error Go returns `-1` beside
it; no caller looks at that number.) -/
def readLength {σ : Type} (R : Reader σ) (fuel : Nat) (s : σ) : Outcome Nat × σ :=
  match binaryRead R fuel s 2 with
  | (.fail f, s1) => (.fail f, s1)
  | (.ok len16, s1) =>
    if len16 < 65535 then (.ok len16, s1)
    else
      match binaryRead R fuel s1 4 with
      | (.fail f, s2) => (.fail f, s2)
      | (.ok len32, s2) => (.ok len32, s2)

/-- The function `writeLength`: `uint16(length)` when `length < math.MaxUint16`,
else `uint16(0xffff)` followed by `uint32(length)`. -/
def writeLength {τ : Type} (W : Writer τ) (out : τ) (length : Nat) : Option Error × τ :=
  if length < 65535 then
    binaryWrite W out (putUint16 (length % 2 ^ 16))
  else
    match binaryWrite W out (putUint16 65535) with
    | (some err, out1) => (some err, out1)
    | (none, out1) => binaryWrite W out1 (putUint32 (length % 2 ^ 32))

/-- The function `readString`: the length, then one `Read` of that many bytes;
the reader's error is returned as it is and a short count gives `io.EOF`. -/
def readString {σ : Type} (R : Reader σ) (fuel : Nat) (s : σ) : Outcome Str × σ :=
  match readLength R fuel s with
  | (.fail f, s1) => (.fail f, s1)
  | (.ok numBytes, s1) =>
    if makePanics numBytes then (.fail .panic, s1)
    else
      let r := R.Read s1 numBytes
      match r.1.2 with
      | some err => (.fail (.returned err), r.2)
      | none =>
        if r.1.1.length ≠ numBytes then (.fail (.returned Error.EOF), r.2)
        else (.ok r.1.1, r.2)

/-- The function `writeString`. -/
def writeString {τ : Type} (W : Writer τ) (out : τ) (val : Str) : Option Error × τ :=
  match writeLength W out val.length with
  | (some err, out1) => (some err, out1)
  | (none, out1) => W.Write out1 val

/-- The loop of `readAttributes`: `n` more turns, each reading a key and a value
and storing them in the map. -/
def readAttributesLoop {σ : Type} (R : Reader σ) (fuel : Nat) :
    Nat → σ → AttrMap → Outcome AttrMap × σ
  | 0, s, attributes => (.ok attributes, s)
  | n + 1, s, attributes =>
    match readString R fuel s with
    | (.fail f, s1) => (.fail f, s1)
    | (.ok key, s1) =>
      match readString R fuel s1 with
      | (.fail f, s2) => (.fail f, s2)
      | (.ok value, s2) => readAttributesLoop R fuel n s2 (mapSet attributes key value)

/-- The function `readAttributes`: the count, then that many key/value pairs
stored into a fresh map. -/
def readAttributes {σ : Type} (R : Reader σ) (fuel : Nat) (s : σ) : Outcome AttrMap × σ :=
  match readLength R fuel s with
  | (.fail f, s1) => (.fail f, s1)
  | (.ok numAttributes, s1) => readAttributesLoop R fuel numAttributes s1 []

/-- The loop of `writeAttributes` over the entries in iteration order. -/
def writeAttributesLoop {τ : Type} (W : Writer τ) : τ → List (Str × Str) → Option Error × τ
  | out, [] => (none, out)
  | out, (key, value) :: entries =>
    match writeString W out key with
    | (some err, out1) => (some err, out1)
    | (none, out1) =>
      match writeString W out1 value with
      | (some err, out2) => (some err, out2)
      | (none, out2) => writeAttributesLoop W out2 entries

/-- The function `writeAttributes`: `len(attributes)`, then every key and value. -/
def writeAttributes {τ : Type} (W : Writer τ) (out : τ) (attributes : AttrMap) : Option Error × τ :=
  match writeLength W out attributes.length with
  | (some err, out1) => (some err, out1)
  | (none, out1) => writeAttributesLoop W out1 attributes

/-- The function `readContent`: a big-endian `uint64` length, a buffer of that
length, then one `Read` into it; the reader's error is returned as it is and a
short count gives `io.EOF`. -/
def readContent {σ : Type} (R : Reader σ) (fuel : Nat) (s : σ) : Outcome (List Byte) × σ :=
  match binaryRead R fuel s 8 with
  | (.fail f, s1) => (.fail f, s1)
  | (.ok length, s1) =>
    if makePanics length then (.fail .panic, s1)
    else
      let r := R.Read s1 length
      match r.1.2 with
      | some err => (.fail (.returned err), r.2)
      | none =>
        if r.1.1.length ≠ length then (.fail (.returned Error.EOF), r.2)
        else (.ok r.1.1, r.2)

/-- The function `writeContent`: `uint64(len(content))`, then the bytes. -/
def writeContent {τ : Type} (W : Writer τ) (out : τ) (content : List Byte) : Option Error × τ :=
  match binaryWrite W out (putUint64 (content.length % 2 ^ 64)) with
  | (some err, out1) => (some err, out1)
  | (none, out1) => W.Write out1 content

/-- The method `Serialize`: header, attributes, content. -/
def FlowFileV3.Serialize {τ : Type} (ff : FlowFileV3) (W : Writer τ) (out : τ) : Option Error × τ :=
  match writeHeader W out with
  | (some err, out1) => (some err, out1)
  | (none, out1) =>
    match writeAttributes W out1 ff.attributes with
    | (some err, out2) => (some err, out2)
    | (none, out2) => writeContent W out2 ff.content

/-- The method `Deserialize`: the returned error, the receiver after the call and
the reader after the call. The attributes are assigned as soon as they are
read, the content as soon as it is read. -/
def FlowFileV3.Deserialize {σ : Type} (ff : FlowFileV3) (R : Reader σ) (fuel : Nat) (s : σ) :
    Outcome Unit × FlowFileV3 × σ :=
  match validateHeader R s with
  | (.fail f, s1) => (.fail f, ff, s1)
  | (.ok _, s1) =>
    match readAttributes R fuel s1 with
    | (.fail f, s2) => (.fail f, ff, s2)
    | (.ok attributes, s2) =>
      match readContent R fuel s2 with
      | (.fail f, s3) => (.fail f, { ff with attributes := attributes }, s3)
      | (.ok content, s3) => (.ok (), { attributes := attributes, content := content }, s3)

/-! ## The reference vector of `flowfile_v3_test.go` -/

/-- The bytes of an ASCII string literal, as `[]byte("...")` gives them. -/
def bytesOf (text : String) : List Byte := text.toList.map (fun c => byte c.toNat)

/-- The function `createByteBuffer` of the test: the contents of the buffer. -/
def createByteBuffer : Buffer :=
  magicHeaderV3 ++ [0, 2]
    ++ [0, 4] ++ bytesOf "key1" ++ [0, 6] ++ bytesOf "value1"
    ++ [0, 4] ++ bytesOf "key2" ++ [0, 6] ++ bytesOf "value2"
    ++ [0, 0, 0, 0, 0, 0, 0, 7] ++ bytesOf "content"

/-- The function `createFlowFileV3` of the test. -/
def createFlowFileV3 : FlowFileV3 :=
  (NewFlowFileV3.SetAttributes
    [(bytesOf "key1", bytesOf "value1"), (bytesOf "key2", bytesOf "value2")]).SetContent
    (bytesOf "content")

/-! ## The wire format in the words of the specification -/

/-- The variable-length form `VarLen(n)`: the bytes `writeLength` sends to a
`bytes.Buffer`. -/
def VarLen (n : Nat) : List Byte := (writeLength bufferWriter [] n).2

/-- A length-prefixed byte string: `VarLen(|val|)` followed by the bytes. -/
def encodeString (val : Str) : List Byte := VarLen val.length ++ val

/-- The attribute section after the count: for each pair the length-prefixed
key, then the length-prefixed value. -/
def encodePairs : List (Str × Str) → List Byte
  | [] => []
  | (key, value) :: entries => encodeString key ++ encodeString value ++ encodePairs entries

/-- The map that successive assignments `m[key] = value` of the pairs, in their
order, build from the map `acc`. -/
def buildMap (entries : List (Str × Str)) (acc : AttrMap) : AttrMap :=
  entries.foldl (fun m kv => mapSet m kv.1 kv.2) acc

/-- Every key and every value is shorter than `2 ^ 32` bytes. -/
def shortStrings (entries : List (Str × Str)) : Prop :=
  ∀ kv ∈ entries, kv.1.length < 2 ^ 32 ∧ kv.2.length < 2 ^ 32

/-- The stream `FlowFileV3Stream` of the specification for the pairs in the
given order: magic marker, count, pairs, 8-byte content length, content. -/
def wireLayout (entries : List (Str × Str)) (content : List Byte) : List Byte :=
  magicHeaderV3 ++ VarLen entries.length ++ encodePairs entries
    ++ putUint64 content.length ++ content

/-- The value a map built by successive assignments holds under a key: the value
of the last pair with that key. -/
def lastValue (entries : List (Str × Str)) (key : Str) : Option Str :=
  (entries.reverse.find? (fun kv => decide (kv.1 = key))).map Prod.snd

/-- A result that reports a truncated input: the call returned `io.EOF` or
`io.ErrUnexpectedEOF`. -/
def Truncated {α σ : Type} (r : Outcome α × σ) : Prop :=
  ∃ err s, r = (.fail (.returned err), s) ∧ err.isTruncated = true

/-! ## A reader with short reads -/

/-- A reader over a `bytes.Buffer` that stores at most `limit` bytes per `Read`
call, whatever the size of `p`, and otherwise behaves as the buffer does;
`shortReader 1` is `iotest.OneByteReader` around the buffer. It delivers every
byte of the buffer, without error, before it reports `io.EOF`. -/
def shortReader (limit : Nat) : Reader Buffer :=
  ⟨fun b n => Buffer.Read b (min n limit)⟩

/-! ## The grammar of the attribute section in the words of the specification -/

/-- A length field at the start of a stream (specification, 4.1): two bytes below
`0xFFFF`, or `FF FF` and four more bytes. Yields the value and the bytes after
the field, `none` when the stream ends inside the field. -/
def splitLength : List Byte → Option (Nat × List Byte)
  | b0 :: b1 :: rest =>
    if bigEndian [b0, b1] < 65535 then some (bigEndian [b0, b1], rest)
    else
      match rest with
      | b2 :: b3 :: b4 :: b5 :: tail => some (bigEndian [b2, b3, b4, b5], tail)
      | _ => none
  | _ => none

/-- A length-prefixed byte string at the start of a stream (specification, 4.2):
a length field and that many bytes. Yields the string and the bytes after it,
`none` when the stream ends before the string is complete. -/
def splitString (stream : List Byte) : Option (Str × List Byte) :=
  match splitLength stream with
  | some (n, rest) => if n ≤ rest.length then some (rest.take n, rest.drop n) else none
  | none => none

/-- Whether the stream supplies `n` complete key/value pairs, each a
length-prefixed key followed by a length-prefixed value. -/
def completePairs : Nat → List Byte → Bool
  | 0, _ => true
  | n + 1, stream =>
    match splitString stream with
    | none => false
    | some (_, rest1) =>
      match splitString rest1 with
      | none => false
      | some (_, rest2) => completePairs n rest2

/-! ## The serialized size in the words of the claim -/

/-- The width `w(x)` of a length field: 2 bytes below 65535, 6 bytes otherwise. -/
def lengthFieldSize (x : Nat) : Nat := if x < 65535 then 2 else 6

/-- The bytes one pair takes: `w(|k|) + |k| + w(|v|) + |v|`. -/
def pairSize (kv : Str × Str) : Nat :=
  lengthFieldSize kv.1.length + kv.1.length + lengthFieldSize kv.2.length + kv.2.length

/-- The serialized size: `7 + w(n) + sum of the pair sizes + 8 + |c|`. -/
def serializedSize (entries : List (Str × Str)) (content : List Byte) : Nat :=
  7 + lengthFieldSize entries.length + (entries.map pairSize).sum + 8 + content.length

/-! ## Big-endian integers -/

theorem bigEndian_putUint16 (v : Nat) : bigEndian (putUint16 v) = v % 2 ^ 16 := by
  simp only [bigEndian, putUint16, byte, List.foldl]
  omega

theorem bigEndian_putUint32 (v : Nat) : bigEndian (putUint32 v) = v % 2 ^ 32 := by
  simp only [bigEndian, putUint32, byte, List.foldl]
  omega

theorem bigEndian_putUint64 (v : Nat) : bigEndian (putUint64 v) = v % 2 ^ 64 := by
  simp only [bigEndian, putUint64, byte, List.foldl]
  omega

theorem bigEndian_two (b0 b1 : Byte) : bigEndian [b0, b1] = b0.val * 256 + b1.val := by
  simp [bigEndian]

theorem bigEndian_four (b0 b1 b2 b3 : Byte) :
    bigEndian [b0, b1, b2, b3] = ((b0.val * 256 + b1.val) * 256 + b2.val) * 256 + b3.val := by
  simp [bigEndian]

theorem bigEndian_lt_two (b0 b1 : Byte) : bigEndian [b0, b1] < 2 ^ 16 := by
  have h0 := b0.isLt
  have h1 := b1.isLt
  rw [bigEndian_two]
  omega

theorem bigEndian_lt_four (b0 b1 b2 b3 : Byte) : bigEndian [b0, b1, b2, b3] < 2 ^ 32 := by
  have h0 := b0.isLt
  have h1 := b1.isLt
  have h2 := b2.isLt
  have h3 := b3.isLt
  simp only [bigEndian, List.foldl]
  omega

/-! ## `io.ReadFull` and `binary.Read` on a `bytes.Buffer` -/

theorem ReadFull_buffer_ok (fuel : Nat) (p rest : List Byte) :
    ReadFull bufferReader p.length (fuel + 1) (p ++ rest) [] = (.ok p, rest) := by
  cases p with
  | nil => simp [ReadFull]
  | cons a p =>
    cases fuel <;> simp [ReadFull, bufferReader, Buffer.Read]

theorem ReadFull_buffer_short (fuel size : Nat) (b : List Byte) (h : b.length < size) :
    ReadFull bufferReader size (fuel + 2) b []
      = (.fail (.returned (if b = [] then Error.EOF else Error.ErrUnexpectedEOF)), []) := by
  cases b with
  | nil =>
    have : size ≠ 0 := by simp at h; omega
    simp [ReadFull, bufferReader, Buffer.Read, this]
  | cons a b =>
    simp at h
    have h1 : ¬ size ≤ b.length + 1 := by omega
    have h2 : size - (b.length + 1) ≠ 0 := by omega
    have h3 : List.take size (a :: b) = a :: b := List.take_of_length_le (by simp; omega)
    have h4 : List.drop size (a :: b) = [] := List.drop_of_length_le (by simp; omega)
    simp [ReadFull, bufferReader, Buffer.Read, h1, h2, h3, h4]
    omega

theorem binaryRead_buffer_ok (fuel : Nat) (p rest : List Byte) (size : Nat) (h : p.length = size) :
    binaryRead bufferReader (fuel + 1) (p ++ rest) size = (.ok (bigEndian p), rest) := by
  subst h
  simp [binaryRead, ReadFull_buffer_ok]

theorem binaryRead_buffer_short (fuel size : Nat) (b : List Byte) (h : b.length < size) :
    Truncated (binaryRead bufferReader (fuel + 2) b size) := by
  refine ⟨if b = [] then Error.EOF else Error.ErrUnexpectedEOF, [], ?_, ?_⟩
  · simp [binaryRead, ReadFull_buffer_short fuel size b h]
  · split <;> rfl

/-! ## The variable-length integer codec on a `bytes.Buffer` -/

theorem writeLength_buffer (out : Buffer) (n : Nat) :
    writeLength bufferWriter out n = (none, out ++ VarLen n) := by
  unfold VarLen writeLength
  split <;> simp [binaryWrite, bufferWriter, Buffer.Write]

theorem VarLen_short (n : Nat) (h : n < 65535) : VarLen n = putUint16 n := by
  have h2 : n % 65536 = n := Nat.mod_eq_of_lt (by omega)
  simp [VarLen, writeLength, h, binaryWrite, bufferWriter, Buffer.Write, h2]

theorem VarLen_long (n : Nat) (h : 65535 ≤ n) :
    VarLen n = [255, 255] ++ putUint32 (n % 2 ^ 32) := by
  have h1 : ¬ n < 65535 := by omega
  have h2 : putUint16 65535 = [255, 255] := by decide
  simp [VarLen, writeLength, h1, binaryWrite, bufferWriter, Buffer.Write, h2]

theorem VarLen_length (n : Nat) : (VarLen n).length = if n < 65535 then 2 else 6 := by
  split
  · rename_i h
    rw [VarLen_short n h]
    rfl
  · rename_i h
    rw [VarLen_long n (by omega)]
    rfl

theorem readLength_buffer_short_form (fuel : Nat) (b0 b1 : Byte) (rest : List Byte)
    (h : bigEndian [b0, b1] < 65535) :
    readLength bufferReader (fuel + 1) (b0 :: b1 :: rest) = (.ok (bigEndian [b0, b1]), rest) := by
  have e := binaryRead_buffer_ok fuel [b0, b1] rest 2 rfl
  simp only [List.cons_append, List.nil_append] at e
  simp [readLength, e, h]

theorem readLength_buffer_long_form (fuel : Nat) (b0 b1 b2 b3 b4 b5 : Byte) (rest : List Byte)
    (h : bigEndian [b0, b1] = 65535) :
    readLength bufferReader (fuel + 1) (b0 :: b1 :: b2 :: b3 :: b4 :: b5 :: rest)
      = (.ok (bigEndian [b2, b3, b4, b5]), rest) := by
  have e := binaryRead_buffer_ok fuel [b0, b1] (b2 :: b3 :: b4 :: b5 :: rest) 2 rfl
  have e2 := binaryRead_buffer_ok fuel [b2, b3, b4, b5] rest 4 rfl
  simp only [List.cons_append, List.nil_append] at e e2
  simp [readLength, e, e2, h]

theorem readLength_VarLen (fuel : Nat) (n : Nat) (rest : List Byte) (h1 : n < 2 ^ 32) :
    readLength bufferReader (fuel + 1) (VarLen n ++ rest) = (.ok n, rest) := by
  by_cases h : n < 65535
  · rw [VarLen_short n h]
    have hv : bigEndian (putUint16 n) = n := by
      rw [bigEndian_putUint16]; omega
    have e := readLength_buffer_short_form fuel (byte (n / 2 ^ 8)) (byte n) rest (by
      show bigEndian (putUint16 n) < 65535
      rw [hv]; exact h)
    simp only [putUint16, List.cons_append, List.nil_append] at e hv ⊢
    rw [e, hv]
  · rw [VarLen_long n (by omega)]
    have hm : n % 2 ^ 32 = n := Nat.mod_eq_of_lt h1
    rw [hm]
    have hv : bigEndian (putUint32 n) = n := by
      rw [bigEndian_putUint32]; omega
    have e := readLength_buffer_long_form fuel 255 255 (byte (n / 2 ^ 24))
      (byte (n / 2 ^ 16)) (byte (n / 2 ^ 8)) (byte n) rest (by decide)
    simp only [putUint32, List.cons_append, List.nil_append] at e hv ⊢
    rw [e, hv]

theorem readLength_buffer_lt_two (fuel : Nat) (b : List Byte) (h : b.length < 2) :
    Truncated (readLength bufferReader (fuel + 2) b) := by
  obtain ⟨err, s, he, ht⟩ := binaryRead_buffer_short fuel 2 b h
  exact ⟨err, s, by simp [readLength, he], ht⟩

theorem readLength_buffer_long_cut (fuel : Nat) (b0 b1 : Byte) (tail : List Byte)
    (h : bigEndian [b0, b1] = 65535) (ht : tail.length < 4) :
    Truncated (readLength bufferReader (fuel + 2) (b0 :: b1 :: tail)) := by
  have e := binaryRead_buffer_ok (fuel + 1) [b0, b1] tail 2 rfl
  simp only [List.cons_append, List.nil_append] at e
  obtain ⟨err, s, he, hs⟩ := binaryRead_buffer_short fuel 4 tail ht
  exact ⟨err, s, by simp [readLength, e, h, he], hs⟩

theorem readLength_VarLen_take (fuel : Nat) (n : Nat) (N : Nat) (h : N < (VarLen n).length) :
    Truncated (readLength bufferReader (fuel + 2) ((VarLen n).take N)) := by
  by_cases hn : n < 65535
  · rw [VarLen_short n hn] at h ⊢
    apply readLength_buffer_lt_two
    simp only [putUint16, List.length_cons, List.length_nil] at h
    simp only [List.length_take, putUint16, List.length_cons, List.length_nil]
    omega
  · rw [VarLen_long n (by omega)] at h ⊢
    simp only [putUint32, List.cons_append, List.nil_append, List.length_cons,
      List.length_nil] at h
    rcases N with _ | _ | N
    · exact readLength_buffer_lt_two fuel _ (by simp)
    · exact readLength_buffer_lt_two fuel _ (by simp)
    · simp only [List.cons_append, List.nil_append, List.take_succ_cons]
      apply readLength_buffer_long_cut fuel 255 255 _ (by decide)
      simp only [List.length_take, putUint32, List.length_cons, List.length_nil]
      omega

/-! ## Single reads on a `bytes.Buffer` -/

@[simp] theorem bufferReader_Read (b : Buffer) (n : Nat) :
    bufferReader.Read b n = Buffer.Read b n := rfl

@[simp] theorem bufferWriter_Write (b : Buffer) (p : List Byte) :
    bufferWriter.Write b p = (none, b ++ p) := rfl

theorem Buffer_Read_append (p rest : List Byte) :
    Buffer.Read (p ++ rest) p.length = ((p, none), rest) := by
  cases p with
  | nil => cases rest <;> simp [Buffer.Read]
  | cons a p => simp [Buffer.Read]

theorem Buffer_Read_short (b : List Byte) (n : Nat) (h : b.length < n) :
    Buffer.Read b n = ((b, if b = [] then some Error.EOF else none), []) := by
  cases b with
  | nil =>
    have : n ≠ 0 := by simp at h; omega
    simp [Buffer.Read, this]
  | cons a b =>
    have h3 : List.take n (a :: b) = a :: b := List.take_of_length_le (by omega)
    have h4 : List.drop n (a :: b) = [] := List.drop_of_length_le (by omega)
    simp [Buffer.Read, h3, h4]

theorem makePanics_of_le (n : Nat) (h : n ≤ maxAlloc) : makePanics n = false := by
  simp only [makePanics, decide_eq_false_iff_not]
  omega

theorem maxAlloc_ge : 2 ^ 32 ≤ maxAlloc := by
  unfold maxAlloc
  norm_num

theorem makePanics_of_lt (n : Nat) (h : n < 2 ^ 32) : makePanics n = false :=
  makePanics_of_le n (by have := maxAlloc_ge; omega)

/-! ## Cutting a concatenation -/

theorem take_append_lt (N : Nat) (a x : List Byte) (h : N < a.length) :
    (a ++ x).take N = a.take N := by
  rw [List.take_append_eq_append_take]
  have h0 : N - a.length = 0 := by omega
  rw [h0, List.take_zero, List.append_nil]

theorem take_append_ge (N : Nat) (a x : List Byte) (h : a.length ≤ N) :
    (a ++ x).take N = a ++ x.take (N - a.length) := by
  rw [List.take_append_eq_append_take, List.take_of_length_le h]

theorem drop_length_sub (a c : List Byte) :
    (a ++ c).drop ((a ++ c).length - c.length) = c := by
  have h : (a ++ c).length - c.length = a.length := by simp
  rw [h, List.drop_left]

/-! ## The byte-string codec on a `bytes.Buffer` -/

theorem writeString_buffer (out : Buffer) (val : Str) :
    writeString bufferWriter out val = (none, out ++ encodeString val) := by
  simp [writeString, writeLength_buffer, encodeString]

theorem readString_buffer_ok (fuel : Nat) (val : Str) (rest : List Byte)
    (h : val.length < 2 ^ 32) :
    readString bufferReader (fuel + 1) (encodeString val ++ rest) = (.ok val, rest) := by
  have e := readLength_VarLen fuel val.length (val ++ rest) h
  have hp := makePanics_of_lt val.length h
  rw [encodeString, List.append_assoc]
  simp [readString, e, hp, Buffer_Read_append]

theorem readString_buffer_take (fuel : Nat) (val : Str) (N : Nat)
    (h : val.length < 2 ^ 32) (hN : N < (encodeString val).length) :
    Truncated (readString bufferReader (fuel + 2) ((encodeString val).take N)) := by
  unfold encodeString at hN ⊢
  rw [List.take_append_eq_append_take]
  by_cases hc : N < (VarLen val.length).length
  · obtain ⟨err, s, he, ht⟩ := readLength_VarLen_take fuel val.length N hc
    have h0 : N - (VarLen val.length).length = 0 := by omega
    rw [h0, List.take_zero, List.append_nil]
    exact ⟨err, s, by simp [readString, he], ht⟩
  · have h1 : List.take N (VarLen val.length) = VarLen val.length :=
      List.take_of_length_le (by omega)
    rw [h1]
    have e := readLength_VarLen (fuel + 1) val.length
      (List.take (N - (VarLen val.length).length) val) h
    have hp := makePanics_of_lt val.length h
    have hl : (List.take (N - (VarLen val.length).length) val).length < val.length := by
      simp only [List.length_append] at hN
      simp only [List.length_take]
      omega
    generalize List.take (N - (VarLen val.length).length) val = t at e hl
    have hr := Buffer_Read_short t val.length hl
    have hne : ¬ t.length = val.length := by omega
    refine ⟨Error.EOF, [], ?_, rfl⟩
    cases t with
    | nil =>
      rw [List.append_nil] at e ⊢
      simp [readString, e, hp, hr]
    | cons a t =>
      have hne2 : ¬ t.length + 1 = val.length := by simpa using hne
      simp [readString, e, hp, hr, hne2]

/-! ## The attribute-map codec on a `bytes.Buffer` -/

theorem shortStrings_cons (kv : Str × Str) (entries : List (Str × Str)) :
    shortStrings (kv :: entries)
      ↔ (kv.1.length < 2 ^ 32 ∧ kv.2.length < 2 ^ 32) ∧ shortStrings entries := by
  simp [shortStrings]

theorem writeAttributesLoop_buffer (out : Buffer) (entries : List (Str × Str)) :
    writeAttributesLoop bufferWriter out entries = (none, out ++ encodePairs entries) := by
  induction entries generalizing out with
  | nil => simp [writeAttributesLoop, encodePairs]
  | cons kv entries ih =>
    obtain ⟨key, value⟩ := kv
    simp [writeAttributesLoop, writeString_buffer, ih, encodePairs]

theorem writeAttributes_buffer (out : Buffer) (attributes : AttrMap) :
    writeAttributes bufferWriter out attributes
      = (none, out ++ (VarLen attributes.length ++ encodePairs attributes)) := by
  simp [writeAttributes, writeLength_buffer, writeAttributesLoop_buffer]

theorem readAttributesLoop_buffer_ok (fuel : Nat) (entries : List (Str × Str)) (acc : AttrMap)
    (rest : List Byte) (h : shortStrings entries) :
    readAttributesLoop bufferReader (fuel + 1) entries.length (encodePairs entries ++ rest) acc
      = (.ok (buildMap entries acc), rest) := by
  induction entries generalizing acc with
  | nil => simp [readAttributesLoop, encodePairs, buildMap]
  | cons kv entries ih =>
    obtain ⟨key, value⟩ := kv
    rw [shortStrings_cons] at h
    obtain ⟨⟨hk, hv⟩, hs⟩ := h
    have e1 := readString_buffer_ok fuel key
      (encodeString value ++ (encodePairs entries ++ rest)) hk
    have e2 := readString_buffer_ok fuel value (encodePairs entries ++ rest) hv
    simp only [encodePairs, List.append_assoc, List.length_cons, readAttributesLoop, e1, e2]
    rw [ih _ hs]
    rfl

theorem readAttributesLoop_buffer_take (fuel : Nat) (entries : List (Str × Str)) (acc : AttrMap)
    (N : Nat) (h : shortStrings entries) (hN : N < (encodePairs entries).length) :
    Truncated (readAttributesLoop bufferReader (fuel + 2) entries.length
      ((encodePairs entries).take N) acc) := by
  induction entries generalizing acc N with
  | nil => simp [encodePairs] at hN
  | cons kv entries ih =>
    obtain ⟨key, value⟩ := kv
    rw [shortStrings_cons] at h
    obtain ⟨⟨hk, hv⟩, hs⟩ := h
    simp only [encodePairs, List.append_assoc, List.length_append] at hN ⊢
    by_cases h1 : N < (encodeString key).length
    · rw [take_append_lt N _ _ h1]
      obtain ⟨err, s, he, ht⟩ := readString_buffer_take fuel key N hk h1
      exact ⟨err, s, by simp [readAttributesLoop, he], ht⟩
    · rw [take_append_ge N _ _ (by omega)]
      have e1 := readString_buffer_ok (fuel + 1) key
        (List.take (N - (encodeString key).length) (encodeString value ++ encodePairs entries)) hk
      by_cases h2 : N - (encodeString key).length < (encodeString value).length
      · rw [take_append_lt _ _ _ h2] at e1 ⊢
        obtain ⟨err, s, he, ht⟩ :=
          readString_buffer_take fuel value (N - (encodeString key).length) hv h2
        exact ⟨err, s, by simp [readAttributesLoop, e1, he], ht⟩
      · rw [take_append_ge _ _ _ (by omega)] at e1 ⊢
        have e2 := readString_buffer_ok (fuel + 1) value
          (List.take (N - (encodeString key).length - (encodeString value).length)
            (encodePairs entries)) hv
        obtain ⟨err, s, he, ht⟩ := ih (mapSet acc key value)
          (N - (encodeString key).length - (encodeString value).length) hs (by omega)
        exact ⟨err, s, by simp [readAttributesLoop, e1, e2, he], ht⟩

theorem readAttributes_buffer_ok (fuel : Nat) (entries : List (Str × Str)) (rest : List Byte)
    (hn : entries.length < 2 ^ 32) (h : shortStrings entries) :
    readAttributes bufferReader (fuel + 1) (VarLen entries.length ++ encodePairs entries ++ rest)
      = (.ok (buildMap entries []), rest) := by
  have e := readLength_VarLen fuel entries.length (encodePairs entries ++ rest) hn
  rw [List.append_assoc]
  simp [readAttributes, e, readAttributesLoop_buffer_ok fuel entries [] rest h]

theorem readAttributes_buffer_take (fuel : Nat) (entries : List (Str × Str)) (N : Nat)
    (hn : entries.length < 2 ^ 32) (h : shortStrings entries)
    (hN : N < (VarLen entries.length ++ encodePairs entries).length) :
    Truncated (readAttributes bufferReader (fuel + 2)
      ((VarLen entries.length ++ encodePairs entries).take N)) := by
  by_cases h1 : N < (VarLen entries.length).length
  · rw [take_append_lt N _ _ h1]
    obtain ⟨err, s, he, ht⟩ := readLength_VarLen_take fuel entries.length N h1
    exact ⟨err, s, by simp [readAttributes, he], ht⟩
  · rw [take_append_ge N _ _ (by omega)]
    have e := readLength_VarLen (fuel + 1) entries.length
      (List.take (N - (VarLen entries.length).length) (encodePairs entries)) hn
    simp only [List.length_append] at hN
    obtain ⟨err, s, he, ht⟩ := readAttributesLoop_buffer_take fuel entries []
      (N - (VarLen entries.length).length) h (by omega)
    exact ⟨err, s, by simp [readAttributes, e, he], ht⟩

/-! ## The content codec on a `bytes.Buffer` -/

theorem putUint64_mod (v : Nat) : putUint64 (v % 2 ^ 64) = putUint64 v := by
  simp only [putUint64, byte, List.cons.injEq, Fin.mk.injEq, and_true]
  omega

theorem putUint64_length (v : Nat) : (putUint64 v).length = 8 := rfl

theorem writeContent_buffer (out : Buffer) (content : List Byte) :
    writeContent bufferWriter out content
      = (none, out ++ (putUint64 content.length ++ content)) := by
  have e := putUint64_mod content.length
  simp only [writeContent, binaryWrite, bufferWriter_Write, e, List.append_assoc]

theorem readContent_buffer_ok (fuel : Nat) (content rest : List Byte)
    (h : content.length ≤ maxAlloc) :
    readContent bufferReader (fuel + 1) (putUint64 content.length ++ content ++ rest)
      = (.ok content, rest) := by
  have hlt : content.length < 2 ^ 64 := by
    have : maxAlloc < 2 ^ 64 := by unfold maxAlloc; norm_num
    omega
  have hv : bigEndian (putUint64 content.length) = content.length := by
    rw [bigEndian_putUint64]; exact Nat.mod_eq_of_lt hlt
  have e := binaryRead_buffer_ok fuel (putUint64 content.length) (content ++ rest) 8 rfl
  rw [hv] at e
  have hp := makePanics_of_le content.length h
  rw [List.append_assoc]
  simp [readContent, e, hp, Buffer_Read_append]

theorem readContent_buffer_take (fuel : Nat) (content : List Byte) (N : Nat)
    (h : content.length ≤ maxAlloc) (hN : N < (putUint64 content.length ++ content).length) :
    Truncated (readContent bufferReader (fuel + 2)
      ((putUint64 content.length ++ content).take N)) := by
  have hlt : content.length < 2 ^ 64 := by
    have : maxAlloc < 2 ^ 64 := by unfold maxAlloc; norm_num
    omega
  have hv : bigEndian (putUint64 content.length) = content.length := by
    rw [bigEndian_putUint64]; exact Nat.mod_eq_of_lt hlt
  by_cases h1 : N < (putUint64 content.length).length
  · rw [take_append_lt N _ _ h1]
    obtain ⟨err, s, he, ht⟩ := binaryRead_buffer_short fuel 8
      (List.take N (putUint64 content.length)) (by
        rw [putUint64_length] at h1
        simp only [List.length_take]
        omega)
    exact ⟨err, s, by simp [readContent, he], ht⟩
  · rw [take_append_ge N _ _ (by omega)]
    have e := binaryRead_buffer_ok (fuel + 1) (putUint64 content.length)
      (List.take (N - (putUint64 content.length).length) content) 8 rfl
    rw [hv] at e
    have hp := makePanics_of_le content.length h
    have hl : (List.take (N - (putUint64 content.length).length) content).length
        < content.length := by
      simp only [List.length_append] at hN
      simp only [List.length_take]
      omega
    generalize List.take (N - (putUint64 content.length).length) content = t at e hl
    have hr := Buffer_Read_short t content.length hl
    have hne : ¬ t.length = content.length := by omega
    refine ⟨Error.EOF, [], ?_, rfl⟩
    cases t with
    | nil =>
      rw [List.append_nil] at e ⊢
      simp [readContent, e, hp, hr]
    | cons a t =>
      have hne2 : ¬ t.length + 1 = content.length := by simpa using hne
      simp [readContent, e, hp, hr, hne2]

/-! ## The header codec on a `bytes.Buffer` -/

theorem magicHeaderV3_length : magicHeaderV3.length = 7 := rfl

theorem writeHeader_buffer (out : Buffer) :
    writeHeader bufferWriter out = (none, out ++ magicHeaderV3) := by
  simp [writeHeader]

theorem validateHeader_buffer_ok (rest : List Byte) :
    validateHeader bufferReader (magicHeaderV3 ++ rest) = (.ok (), rest) := by
  have e := Buffer_Read_append magicHeaderV3 rest
  simp [validateHeader, e]

theorem validateHeader_buffer_short (b : List Byte) (h : b.length < 7) :
    validateHeader bufferReader b = (.fail (.returned Error.EOF), []) := by
  have e := Buffer_Read_short b magicHeaderV3.length (by rw [magicHeaderV3_length]; exact h)
  have hne : ¬ b.length = magicHeaderV3.length := by rw [magicHeaderV3_length]; omega
  cases b with
  | nil => simp [validateHeader, e]
  | cons a b =>
    have hne2 : ¬ b.length + 1 = magicHeaderV3.length := by simpa using hne
    simp [validateHeader, e, hne2]

theorem validateHeader_buffer_bad (b : List Byte) (h : 7 ≤ b.length)
    (hb : b.take 7 ≠ magicHeaderV3) :
    validateHeader bufferReader b = (.fail (.returned Error.badHeaderV3), b.drop 7) := by
  have hne : b ≠ [] := by
    intro h0
    rw [h0] at h
    simp at h
  have hl : (List.take 7 b).length = 7 := by
    rw [List.length_take]; omega
  simp [validateHeader, Buffer.Read, hne, magicHeaderV3_length, hl, hb]

/-! ## Maps -/

theorem mapGet_mapSet (m : AttrMap) (key value key2 : Str) :
    mapGet (mapSet m key value) key2 = if key = key2 then some value else mapGet m key2 := by
  induction m with
  | nil => simp [mapSet, mapGet]
  | cons kv m ih =>
    obtain ⟨k, v⟩ := kv
    by_cases h : k = key
    · subst h
      by_cases h2 : k = key2 <;> simp [mapSet, mapGet, h2]
    · by_cases h2 : k = key2
      · subst h2
        have h3 : ¬ key = k := fun e => h e.symm
        simp [mapSet, mapGet, h, h3]
      · simp [mapSet, mapGet, h, h2, ih]

theorem mapKeys_mapSet_mem (m : AttrMap) (key value key2 : Str) :
    key2 ∈ mapKeys (mapSet m key value) ↔ key2 = key ∨ key2 ∈ mapKeys m := by
  induction m with
  | nil => simp [mapSet, mapKeys]
  | cons kv m ih =>
    obtain ⟨k, v⟩ := kv
    simp only [mapKeys] at ih
    by_cases h : k = key
    · subst h
      simp [mapSet, mapKeys]
    · simp only [mapSet, h, if_false, mapKeys, List.map_cons, List.mem_cons, ih]
      tauto

theorem mapKeys_mapSet_nodup (m : AttrMap) (key value : Str) (h : (mapKeys m).Nodup) :
    (mapKeys (mapSet m key value)).Nodup := by
  induction m with
  | nil => simp [mapSet, mapKeys]
  | cons kv m ih =>
    obtain ⟨k, v⟩ := kv
    simp only [mapKeys, List.map_cons, List.nodup_cons] at h ih
    by_cases hk : k = key
    · simp only [mapSet, hk, if_true, mapKeys, List.map_cons, List.nodup_cons]
      rw [← hk]
      exact h
    · simp only [mapSet, hk, if_false, mapKeys, List.map_cons, List.nodup_cons]
      refine ⟨?_, ih h.2⟩
      intro hmem
      have := (mapKeys_mapSet_mem m key value k).1 hmem
      rcases this with h1 | h1
      · exact hk h1
      · exact h.1 h1

theorem mapSet_of_not_mem (m : AttrMap) (key value : Str) (h : key ∉ mapKeys m) :
    mapSet m key value = m ++ [(key, value)] := by
  induction m with
  | nil => rfl
  | cons kv m ih =>
    obtain ⟨k, v⟩ := kv
    simp only [mapKeys, List.map_cons, List.mem_cons, not_or] at h ih
    have hk : ¬ k = key := fun e => h.1 e.symm
    simp [mapSet, hk, ih h.2]

theorem buildMap_cons (kv : Str × Str) (entries : List (Str × Str)) (acc : AttrMap) :
    buildMap (kv :: entries) acc = buildMap entries (mapSet acc kv.1 kv.2) := rfl

theorem buildMap_of_nodup (entries : List (Str × Str)) (acc : AttrMap)
    (h : (mapKeys (acc ++ entries)).Nodup) : buildMap entries acc = acc ++ entries := by
  induction entries generalizing acc with
  | nil => simp [buildMap]
  | cons kv entries ih =>
    have hnot : kv.1 ∉ mapKeys acc := by
      simp only [mapKeys, List.map_append, List.map_cons] at h
      have h2 := List.nodup_append.1 h
      intro hmem
      exact h2.2.2 hmem (List.mem_cons_self _ _)
    rw [buildMap_cons, mapSet_of_not_mem acc kv.1 kv.2 hnot]
    have h3 : (mapKeys (acc ++ [(kv.1, kv.2)] ++ entries)).Nodup := by
      simpa using h
    rw [ih _ h3]
    simp

theorem lastValue_cons (kv : Str × Str) (entries : List (Str × Str)) (key : Str) :
    lastValue (kv :: entries) key
      = match lastValue entries key with
        | some v => some v
        | none => if kv.1 = key then some kv.2 else none := by
  simp only [lastValue, List.reverse_cons, List.find?_append]
  cases h : List.find? (fun kv => decide (kv.1 = key)) entries.reverse with
  | some x => simp
  | none =>
    by_cases hk : kv.1 = key <;> simp [List.find?, hk]

theorem mapGet_buildMap (entries : List (Str × Str)) (acc : AttrMap) (key : Str) :
    mapGet (buildMap entries acc) key
      = match lastValue entries key with
        | some v => some v
        | none => mapGet acc key := by
  induction entries generalizing acc with
  | nil => simp [buildMap, lastValue]
  | cons kv entries ih =>
    rw [buildMap_cons, ih, lastValue_cons, mapGet_mapSet]
    cases lastValue entries key with
    | some v => rfl
    | none => by_cases hk : kv.1 = key <;> simp [hk]

theorem mapKeys_buildMap_mem (entries : List (Str × Str)) (acc : AttrMap) (key : Str) :
    key ∈ mapKeys (buildMap entries acc) ↔ key ∈ mapKeys acc ∨ key ∈ entries.map Prod.fst := by
  induction entries generalizing acc with
  | nil => simp [buildMap]
  | cons kv entries ih =>
    rw [buildMap_cons, ih, mapKeys_mapSet_mem]
    simp only [List.map_cons, List.mem_cons]
    tauto

theorem mapKeys_buildMap_nodup (entries : List (Str × Str)) (acc : AttrMap)
    (h : (mapKeys acc).Nodup) : (mapKeys (buildMap entries acc)).Nodup := by
  induction entries generalizing acc with
  | nil => simpa [buildMap] using h
  | cons kv entries ih =>
    rw [buildMap_cons]
    exact ih _ (mapKeys_mapSet_nodup acc kv.1 kv.2 h)

theorem buildMap_length (entries : List (Str × Str)) :
    (buildMap entries []).length = (entries.map Prod.fst).toFinset.card := by
  have hnd := mapKeys_buildMap_nodup entries [] (by simp [mapKeys])
  have hset : (mapKeys (buildMap entries [])).toFinset = (entries.map Prod.fst).toFinset := by
    ext key
    simp only [List.mem_toFinset]
    rw [mapKeys_buildMap_mem]
    simp [mapKeys]
  rw [← hset, List.toFinset_card_of_nodup hnd]
  simp [mapKeys]

theorem mapGet_eq_some_iff (m : AttrMap) (key value : Str) (h : (mapKeys m).Nodup) :
    mapGet m key = some value ↔ (key, value) ∈ m := by
  induction m with
  | nil => simp [mapGet]
  | cons kv m ih =>
    obtain ⟨k, v⟩ := kv
    simp only [mapKeys, List.map_cons, List.nodup_cons] at h ih
    by_cases hk : k = key
    · subst hk
      simp only [mapGet, if_true, Option.some.injEq, List.mem_cons, Prod.mk.injEq, true_and]
      constructor
      · intro e
        exact Or.inl e.symm
      · rintro (e | e)
        · exact e.symm
        · exact absurd (List.mem_map_of_mem Prod.fst e) h.1
    · simp only [mapGet, hk, if_false, ih h.2, List.mem_cons, Prod.mk.injEq]
      constructor
      · intro e
        exact Or.inr e
      · rintro (e | e)
        · exact absurd e.1.symm hk
        · exact e

theorem mapEqual_of_perm (m1 m2 : AttrMap) (hp : m1.Perm m2) (h : (mapKeys m2).Nodup) :
    mapEqual m1 m2 := by
  have h1 : (mapKeys m1).Nodup := (List.Perm.nodup_iff (hp.map Prod.fst)).2 h
  refine ⟨hp.length_eq, fun key => ?_⟩
  apply Option.ext
  intro value
  rw [Option.mem_def, Option.mem_def, mapGet_eq_some_iff m1 key value h1,
    mapGet_eq_some_iff m2 key value h]
  exact hp.mem_iff

/-! ## `Serialize` and `Deserialize` on a `bytes.Buffer` -/

theorem Serialize_buffer (ff : FlowFileV3) (out : Buffer) :
    ff.Serialize bufferWriter out = (none, out ++ wireLayout ff.attributes ff.content) := by
  simp [FlowFileV3.Serialize, writeHeader_buffer, writeAttributes_buffer, writeContent_buffer,
    wireLayout]

theorem Deserialize_buffer_ok (fuel : Nat) (t : FlowFileV3) (entries : List (Str × Str))
    (content rest : List Byte) (hn : entries.length < 2 ^ 32) (hs : shortStrings entries)
    (hc : content.length ≤ maxAlloc) :
    t.Deserialize bufferReader (fuel + 1) (wireLayout entries content ++ rest)
      = (.ok (), { attributes := buildMap entries [], content := content }, rest) := by
  have e1 := validateHeader_buffer_ok
    (VarLen entries.length ++ encodePairs entries ++ (putUint64 content.length ++ content ++ rest))
  have e2 := readAttributes_buffer_ok fuel entries
    (putUint64 content.length ++ content ++ rest) hn hs
  have e3 := readContent_buffer_ok fuel content rest hc
  simp only [wireLayout, List.append_assoc] at e1 e2 e3 ⊢
  simp only [FlowFileV3.Deserialize, e1, e2, e3]

theorem wireLayout_assoc (entries : List (Str × Str)) (content : List Byte) :
    wireLayout entries content
      = magicHeaderV3 ++ ((VarLen entries.length ++ encodePairs entries)
          ++ (putUint64 content.length ++ content)) := by
  simp [wireLayout]

theorem Deserialize_buffer_take (fuel : Nat) (t : FlowFileV3) (entries : List (Str × Str))
    (content : List Byte) (N : Nat) (hn : entries.length < 2 ^ 32) (hs : shortStrings entries)
    (hc : content.length ≤ maxAlloc) (hN : N < (wireLayout entries content).length) :
    Truncated (t.Deserialize bufferReader (fuel + 2) ((wireLayout entries content).take N)) := by
  rw [wireLayout_assoc] at hN ⊢
  simp only [List.length_append, magicHeaderV3_length] at hN
  by_cases h1 : N < magicHeaderV3.length
  · rw [take_append_lt N _ _ h1]
    have e := validateHeader_buffer_short (List.take N magicHeaderV3) (by
      rw [magicHeaderV3_length] at h1
      simp only [List.length_take]
      omega)
    exact ⟨Error.EOF, (t, []), by simp [FlowFileV3.Deserialize, e], rfl⟩
  · rw [magicHeaderV3_length] at h1
    rw [take_append_ge N _ _ (by rw [magicHeaderV3_length]; omega), magicHeaderV3_length]
    have e1 := validateHeader_buffer_ok (List.take (N - 7)
      ((VarLen entries.length ++ encodePairs entries) ++ (putUint64 content.length ++ content)))
    by_cases h2 : N - 7 < (VarLen entries.length ++ encodePairs entries).length
    · rw [take_append_lt _ _ _ h2] at e1 ⊢
      obtain ⟨err, s, he, ht⟩ := readAttributes_buffer_take fuel entries (N - 7) hn hs h2
      exact ⟨err, (t, s), by simp [FlowFileV3.Deserialize, e1, he], ht⟩
    · rw [take_append_ge _ _ _ (by omega)] at e1 ⊢
      have e2 : readAttributes bufferReader (fuel + 2)
          (VarLen entries.length ++ encodePairs entries ++
            List.take (N - 7 - (VarLen entries.length ++ encodePairs entries).length)
              (putUint64 content.length ++ content))
          = (.ok (buildMap entries []),
            List.take (N - 7 - (VarLen entries.length ++ encodePairs entries).length)
              (putUint64 content.length ++ content)) :=
        readAttributes_buffer_ok (fuel + 1) entries _ hn hs
      obtain ⟨err, s, he, ht⟩ := readContent_buffer_take fuel content
        (N - 7 - (VarLen entries.length ++ encodePairs entries).length) hc (by
          simp only [List.length_append] at h2 ⊢
          omega)
      exact ⟨err, ({ t with attributes := buildMap entries [] }, s),
        by simp only [FlowFileV3.Deserialize, e1, e2, he], ht⟩

theorem isTruncated_iff (err : Error) :
    err.isTruncated = true ↔ err = Error.EOF ∨ err = Error.ErrUnexpectedEOF := by
  cases err <;> simp [Error.isTruncated]

theorem readContent_buffer_declared_short (fuel : Nat) (field tail : List Byte)
    (hl : field.length = 8) (hL : bigEndian field ≤ maxAlloc)
    (ht : tail.length < bigEndian field) :
    readContent bufferReader (fuel + 1) (field ++ tail)
      = (.fail (.returned Error.EOF), []) := by
  have e := binaryRead_buffer_ok fuel field tail 8 hl
  have hp := makePanics_of_le (bigEndian field) hL
  have hr := Buffer_Read_short tail (bigEndian field) ht
  have hne : ¬ tail.length = bigEndian field := by omega
  cases tail with
  | nil =>
    rw [List.append_nil] at e ⊢
    simp [readContent, e, hp, hr]
  | cons a tail =>
    have hne2 : ¬ tail.length + 1 = bigEndian field := by simpa using hne
    simp [readContent, e, hp, hr, hne2]

theorem mapGet_eq_none_iff (m : AttrMap) (key : Str) :
    mapGet m key = none ↔ key ∉ mapKeys m := by
  induction m with
  | nil => simp [mapGet, mapKeys]
  | cons kv m ih =>
    obtain ⟨k, v⟩ := kv
    simp only [mapKeys] at ih
    by_cases hk : k = key
    · simp [mapGet, mapKeys, hk]
    · have hk2 : ¬ key = k := fun e => hk e.symm
      simp [mapGet, mapKeys, hk, hk2, ih]

theorem mapGet_mem (m : AttrMap) (key value : Str) (h : mapGet m key = some value) :
    (key, value) ∈ m := by
  induction m with
  | nil => simp [mapGet] at h
  | cons kv m ih =>
    obtain ⟨k, v⟩ := kv
    by_cases hk : k = key
    · simp only [mapGet, hk, if_true, Option.some.injEq] at h
      simp [hk, h]
    · simp only [mapGet, hk, if_false] at h
      exact List.mem_cons_of_mem _ (ih h)

/-! ## The attribute section of an arbitrary stream -/

theorem readLength_of_splitLength (fuel : Nat) (b rest : List Byte) (n : Nat)
    (h : splitLength b = some (n, rest)) :
    readLength bufferReader (fuel + 1) b = (.ok n, rest) ∧ n < 2 ^ 32 := by
  rcases b with _ | ⟨b0, _ | ⟨b1, tl⟩⟩
  · simp [splitLength] at h
  · simp [splitLength] at h
  · by_cases hs : bigEndian [b0, b1] < 65535
    · simp only [splitLength, hs, if_true, Option.some.injEq, Prod.mk.injEq] at h
      obtain ⟨h1, h2⟩ := h
      subst h1 h2
      exact ⟨readLength_buffer_short_form fuel b0 b1 tl hs, by omega⟩
    · have hlt := bigEndian_lt_two b0 b1
      have heq : bigEndian [b0, b1] = 65535 := by omega
      rcases tl with _ | ⟨b2, _ | ⟨b3, _ | ⟨b4, _ | ⟨b5, tail⟩⟩⟩⟩
      · simp [splitLength, hs] at h
      · simp [splitLength, hs] at h
      · simp [splitLength, hs] at h
      · simp [splitLength, hs] at h
      · simp only [splitLength, hs, if_false, Option.some.injEq, Prod.mk.injEq] at h
        obtain ⟨h1, h2⟩ := h
        subst h1 h2
        exact ⟨readLength_buffer_long_form fuel b0 b1 b2 b3 b4 b5 tail heq,
          bigEndian_lt_four b2 b3 b4 b5⟩

theorem readLength_of_splitLength_none (fuel : Nat) (b : List Byte)
    (h : splitLength b = none) : Truncated (readLength bufferReader (fuel + 2) b) := by
  rcases b with _ | ⟨b0, _ | ⟨b1, tl⟩⟩
  · exact readLength_buffer_lt_two fuel [] (by simp)
  · exact readLength_buffer_lt_two fuel [b0] (by simp)
  · by_cases hs : bigEndian [b0, b1] < 65535
    · simp [splitLength, hs] at h
    · have hlt := bigEndian_lt_two b0 b1
      have heq : bigEndian [b0, b1] = 65535 := by omega
      apply readLength_buffer_long_cut fuel b0 b1 tl heq
      rcases tl with _ | ⟨b2, _ | ⟨b3, _ | ⟨b4, _ | ⟨b5, tail⟩⟩⟩⟩
      · simp
      · simp
      · simp
      · simp
      · simp [splitLength, hs] at h

theorem readString_of_splitString (fuel : Nat) (b rest : List Byte) (val : Str)
    (h : splitString b = some (val, rest)) :
    readString bufferReader (fuel + 1) b = (.ok val, rest) := by
  unfold splitString at h
  cases hl : splitLength b with
  | none => simp [hl] at h
  | some p =>
    obtain ⟨n, tl⟩ := p
    simp only [hl] at h
    by_cases hn : n ≤ tl.length
    · simp only [hn, if_true, Option.some.injEq, Prod.mk.injEq] at h
      obtain ⟨h1, h2⟩ := h
      obtain ⟨e, hlt⟩ := readLength_of_splitLength fuel b tl n hl
      have hp := makePanics_of_lt n hlt
      have hlen : (List.take n tl).length = n := by
        rw [List.length_take]; omega
      have hr := Buffer_Read_append (List.take n tl) (List.drop n tl)
      rw [List.take_append_drop, hlen] at hr
      subst h1 h2
      simp [readString, e, hp, hr, hlen]
    · simp [hn] at h

theorem readString_of_splitString_none (fuel : Nat) (b : List Byte)
    (h : splitString b = none) : Truncated (readString bufferReader (fuel + 2) b) := by
  unfold splitString at h
  cases hl : splitLength b with
  | none =>
    obtain ⟨err, s, he, ht⟩ := readLength_of_splitLength_none fuel b hl
    exact ⟨err, s, by simp [readString, he], ht⟩
  | some p =>
    obtain ⟨n, tl⟩ := p
    simp only [hl] at h
    by_cases hn : n ≤ tl.length
    · simp [hn] at h
    · have e : readLength bufferReader (fuel + 2) b = (.ok n, tl) :=
        (readLength_of_splitLength (fuel + 1) b tl n hl).1
      have hlt := (readLength_of_splitLength (fuel + 1) b tl n hl).2
      have hp := makePanics_of_lt n hlt
      have hr := Buffer_Read_short tl n (by omega)
      have hne : ¬ tl.length = n := by omega
      refine ⟨Error.EOF, [], ?_, rfl⟩
      cases tl with
      | nil => simp [readString, e, hp, hr]
      | cons a tl =>
        have hne2 : ¬ tl.length + 1 = n := by simpa using hne
        simp [readString, e, hp, hr, hne2]

theorem readAttributesLoop_incomplete (fuel : Nat) (n : Nat) (b : List Byte) (acc : AttrMap)
    (h : completePairs n b = false) :
    Truncated (readAttributesLoop bufferReader (fuel + 2) n b acc) := by
  induction n generalizing b acc with
  | zero => simp [completePairs] at h
  | succ n ih =>
    cases h1 : splitString b with
    | none =>
      obtain ⟨err, s, he, ht⟩ := readString_of_splitString_none fuel b h1
      exact ⟨err, s, by simp [readAttributesLoop, he], ht⟩
    | some p1 =>
      obtain ⟨key, rest1⟩ := p1
      have e1 : readString bufferReader (fuel + 2) b = (.ok key, rest1) :=
        readString_of_splitString (fuel + 1) b rest1 key h1
      cases h2 : splitString rest1 with
      | none =>
        obtain ⟨err, s, he, ht⟩ := readString_of_splitString_none fuel rest1 h2
        exact ⟨err, s, by simp [readAttributesLoop, e1, he], ht⟩
      | some p2 =>
        obtain ⟨value, rest2⟩ := p2
        have e2 : readString bufferReader (fuel + 2) rest1 = (.ok value, rest2) :=
          readString_of_splitString (fuel + 1) rest1 rest2 value h2
        simp only [completePairs, h1, h2] at h
        obtain ⟨err, s, he, ht⟩ := ih rest2 (mapSet acc key value) h
        exact ⟨err, s, by simp [readAttributesLoop, e1, e2, he], ht⟩

theorem readAttributesLoop_complete (fuel : Nat) (n : Nat) (b : List Byte) (acc : AttrMap)
    (h : completePairs n b = true) :
    ∃ (m : AttrMap) (rest : Buffer),
      readAttributesLoop bufferReader (fuel + 1) n b acc = (.ok m, rest) := by
  induction n generalizing b acc with
  | zero => exact ⟨acc, b, rfl⟩
  | succ n ih =>
    cases h1 : splitString b with
    | none => simp [completePairs, h1] at h
    | some p1 =>
      obtain ⟨key, rest1⟩ := p1
      have e1 := readString_of_splitString fuel b rest1 key h1
      cases h2 : splitString rest1 with
      | none => simp [completePairs, h1, h2] at h
      | some p2 =>
        obtain ⟨value, rest2⟩ := p2
        have e2 := readString_of_splitString fuel rest1 rest2 value h2
        simp only [completePairs, h1, h2] at h
        obtain ⟨m, rest, he⟩ := ih rest2 (mapSet acc key value) h
        exact ⟨m, rest, by simp [readAttributesLoop, e1, e2, he]⟩

theorem splitLength_VarLen (n : Nat) (rest : List Byte) (h : n < 2 ^ 32) :
    splitLength (VarLen n ++ rest) = some (n, rest) := by
  by_cases hs : n < 65535
  · have hv : bigEndian (putUint16 n) = n := by
      rw [bigEndian_putUint16]; omega
    rw [VarLen_short n hs]
    simp only [putUint16, List.cons_append, List.nil_append] at hv ⊢
    simp only [splitLength, hv, hs, if_true]
  · have hv : bigEndian (putUint32 n) = n := by
      rw [bigEndian_putUint32]; omega
    have h255 : ¬ bigEndian [(255 : Byte), 255] < 65535 := by decide
    rw [VarLen_long n (by omega), Nat.mod_eq_of_lt h]
    simp only [putUint32, List.cons_append, List.nil_append] at hv ⊢
    simp only [splitLength, h255, if_false, hv]

theorem splitString_encodeString (val : Str) (rest : List Byte) (h : val.length < 2 ^ 32) :
    splitString (encodeString val ++ rest) = some (val, rest) := by
  rw [encodeString, List.append_assoc]
  simp [splitString, splitLength_VarLen val.length (val ++ rest) h]

theorem completePairs_encodePairs (entries : List (Str × Str)) (rest : List Byte)
    (h : shortStrings entries) :
    completePairs entries.length (encodePairs entries ++ rest) = true := by
  induction entries with
  | nil => rfl
  | cons kv entries ih =>
    obtain ⟨key, value⟩ := kv
    rw [shortStrings_cons] at h
    obtain ⟨⟨hk, hv⟩, hs⟩ := h
    have e1 := splitString_encodeString key
      (encodeString value ++ (encodePairs entries ++ rest)) hk
    have e2 := splitString_encodeString value (encodePairs entries ++ rest) hv
    simp only [encodePairs, List.append_assoc, List.length_cons, completePairs, e1, e2]
    exact ih hs

/-! ## Sizes -/

theorem VarLen_length_eq (n : Nat) : (VarLen n).length = lengthFieldSize n := by
  rw [VarLen_length, lengthFieldSize]

theorem encodePairs_length (entries : List (Str × Str)) :
    (encodePairs entries).length = (entries.map pairSize).sum := by
  induction entries with
  | nil => rfl
  | cons kv entries ih =>
    obtain ⟨key, value⟩ := kv
    simp only [encodePairs, encodeString, List.length_append, VarLen_length_eq, ih,
      List.map_cons, List.sum_cons, pairSize]
    omega

theorem wireLayout_length (entries : List (Str × Str)) (content : List Byte) :
    (wireLayout entries content).length = serializedSize entries content := by
  simp only [wireLayout, List.length_append, magicHeaderV3_length, VarLen_length_eq,
    encodePairs_length, putUint64_length, serializedSize]

theorem readLength_VarLen_wrap (fuel : Nat) (n : Nat) (rest : List Byte) (h : 65535 ≤ n) :
    readLength bufferReader (fuel + 1) (VarLen n ++ rest) = (.ok (n % 2 ^ 32), rest) := by
  rw [VarLen_long n h]
  have hv : bigEndian (putUint32 (n % 2 ^ 32)) = n % 2 ^ 32 := by
    rw [bigEndian_putUint32]; omega
  have e := readLength_buffer_long_form fuel 255 255 (byte (n % 2 ^ 32 / 2 ^ 24))
    (byte (n % 2 ^ 32 / 2 ^ 16)) (byte (n % 2 ^ 32 / 2 ^ 8)) (byte (n % 2 ^ 32)) rest (by decide)
  simp only [putUint32, List.cons_append, List.nil_append] at e hv ⊢
  rw [e, hv]

/-! ## The claims -/

/-- C1 (round trip). Let `ff` be a FlowFile whose attribute list (in the order
`Serialize` iterates the map, keys distinct) has fewer than `2 ^ 32` entries,
each key and value shorter than `2 ^ 32` bytes, and whose content is a Go slice
(at most `maxAlloc` bytes). `Serialize` into an empty `bytes.Buffer` returns no
error, and `Deserialize` of that buffer into any entity `t` returns no error,
reads the whole buffer and leaves `t` with a map equal to the map of `ff`,
however the pairs of that map are listed, and with the content of `ff`. -/
theorem serialize_deserialize_round_trip (fuel : Nat) (ff t : FlowFileV3)
    (hkeys : (mapKeys ff.attributes).Nodup) (hn : ff.attributes.length < 2 ^ 32)
    (hs : shortStrings ff.attributes) (hc : ff.content.length ≤ maxAlloc) :
    (ff.Serialize bufferWriter []).1 = none ∧
    ∃ t2 : FlowFileV3,
      t.Deserialize bufferReader (fuel + 1) (ff.Serialize bufferWriter []).2 = (.ok (), t2, []) ∧
      mapEqual t2.attributes ff.attributes ∧
      (∀ m : AttrMap, m.Perm ff.attributes → mapEqual t2.attributes m) ∧
      t2.content = ff.content := by
  rw [Serialize_buffer]
  refine ⟨rfl, ⟨buildMap ff.attributes [], ff.content⟩, ?_, ?_, ?_, rfl⟩
  · have e := Deserialize_buffer_ok fuel t ff.attributes ff.content [] hn hs hc
    simpa using e
  · rw [buildMap_of_nodup ff.attributes [] (by simpa using hkeys)]
    exact mapEqual_of_perm _ _ (List.Perm.refl _) (by simpa using hkeys)
  · intro m hm
    rw [buildMap_of_nodup ff.attributes [] (by simpa using hkeys)]
    have hm2 : (mapKeys m).Nodup := (List.Perm.nodup_iff (hm.map Prod.fst)).2 hkeys
    simpa using mapEqual_of_perm ff.attributes m hm.symm hm2

/-- The round trip of the FlowFile of the test into an entity that already holds content. -/
theorem serialize_deserialize_round_trip_witness :
    (createFlowFileV3.Serialize bufferWriter []).1 = none ∧
    ∃ t2 : FlowFileV3,
      (NewFlowFileV3.SetContent [1, 2]).Deserialize bufferReader 1
          (createFlowFileV3.Serialize bufferWriter []).2 = (.ok (), t2, []) ∧
      mapEqual t2.attributes createFlowFileV3.attributes ∧
      (∀ m : AttrMap, m.Perm createFlowFileV3.attributes → mapEqual t2.attributes m) ∧
      t2.content = createFlowFileV3.content :=
  serialize_deserialize_round_trip 0 createFlowFileV3 (NewFlowFileV3.SetContent [1, 2])
    (by decide) (by decide) (by unfold shortStrings; decide) (by unfold maxAlloc; decide)

/-- C2 (reference vector). `Deserialize` of the test's byte stream into a new
FlowFile returns no error, reads the whole stream and leaves the entity equal
to the one the test builds with `SetAttributes` and `SetContent`: attributes
`key1 ↦ value1`, `key2 ↦ value2` and content `content`. -/
theorem reference_vector_decodes (fuel : Nat) :
    NewFlowFileV3.Deserialize bufferReader (fuel + 1) createByteBuffer
        = (.ok (), createFlowFileV3, []) ∧
    createFlowFileV3.GetAttributes
        = [(bytesOf "key1", bytesOf "value1"), (bytesOf "key2", bytesOf "value2")] ∧
    createFlowFileV3.GetContent = bytesOf "content" := by
  refine ⟨?_, rfl, rfl⟩
  have hlay : createByteBuffer
      = wireLayout createFlowFileV3.attributes createFlowFileV3.content ++ [] := by decide
  have hmap : buildMap createFlowFileV3.attributes [] = createFlowFileV3.attributes := by decide
  rw [hlay, Deserialize_buffer_ok fuel NewFlowFileV3 createFlowFileV3.attributes
    createFlowFileV3.content [] (by decide) (by unfold shortStrings; decide)
    (by unfold maxAlloc; decide), hmap]

/-- C3 (wire layout). The bytes `Serialize` appends to a `bytes.Buffer` are the magic
marker, `VarLen` of the number of pairs, for each pair in iteration order the
length-prefixed key and the length-prefixed value, the 8 bytes of the content
length and the content; no error is returned, the first 7 bytes written are
the magic marker and the last bytes written are the content. -/
theorem serialize_wire_layout (ff : FlowFileV3) (out : Buffer) :
    ff.Serialize bufferWriter out
      = (none, out ++ (magicHeaderV3 ++ VarLen ff.attributes.length ++ encodePairs ff.attributes
          ++ putUint64 ff.content.length ++ ff.content)) ∧
    (∀ n, VarLen n = (writeLength bufferWriter [] n).2) ∧
    (∀ key value entries, encodePairs ((key, value) :: entries)
      = VarLen key.length ++ key ++ (VarLen value.length ++ value) ++ encodePairs entries) ∧
    encodePairs [] = [] ∧
    (putUint64 ff.content.length).length = 8 ∧
    bigEndian (putUint64 ff.content.length) = ff.content.length % 2 ^ 64 ∧
    (ff.Serialize bufferWriter []).2.take 7 = magicHeaderV3 ∧
    (ff.Serialize bufferWriter []).2.drop
      ((ff.Serialize bufferWriter []).2.length - ff.content.length) = ff.content := by
  refine ⟨?_, fun _ => rfl, fun _ _ _ => rfl, rfl, rfl, bigEndian_putUint64 _, ?_, ?_⟩
  · rw [Serialize_buffer, wireLayout]
  · rw [Serialize_buffer, wireLayout_assoc]
    simp [magicHeaderV3]
  · rw [Serialize_buffer, wireLayout, List.nil_append]
    exact drop_length_sub _ _

/-- C4 (variable-length encoding rule). For `n < 65535`, `writeLength` writes the
two bytes of `n` as a big-endian `uint16`; for `65535 ≤ n < 2 ^ 32` it writes
`FF FF` followed by the four bytes of `n` as a big-endian `uint32`; `65535`
itself is written as `FF FF 00 00 FF FF`. -/
theorem writeLength_encoding_rule (out : Buffer) (n : Nat) :
    (n < 65535 →
      writeLength bufferWriter out n = (none, out ++ putUint16 n) ∧
      (putUint16 n).length = 2 ∧ bigEndian (putUint16 n) = n) ∧
    (65535 ≤ n → n < 2 ^ 32 →
      writeLength bufferWriter out n = (none, out ++ ([255, 255] ++ putUint32 n)) ∧
      (putUint32 n).length = 4 ∧ bigEndian (putUint32 n) = n) ∧
    writeLength bufferWriter out 65535 = (none, out ++ [255, 255, 0, 0, 255, 255]) := by
  refine ⟨fun h => ⟨?_, rfl, ?_⟩, fun h1 h2 => ⟨?_, rfl, ?_⟩, ?_⟩
  · rw [writeLength_buffer, VarLen_short n h]
  · rw [bigEndian_putUint16]; omega
  · rw [writeLength_buffer, VarLen_long n h1, Nat.mod_eq_of_lt h2]
  · rw [bigEndian_putUint32]; omega
  · rw [writeLength_buffer]
    rfl

/-- The encoding rule at 300 (short form) and at 70000 (long form). -/
theorem writeLength_encoding_rule_witness :
    (writeLength bufferWriter [] 300 = (none, [] ++ putUint16 300) ∧
      (putUint16 300).length = 2 ∧ bigEndian (putUint16 300) = 300) ∧
    (writeLength bufferWriter [] 70000 = (none, [] ++ ([255, 255] ++ putUint32 70000)) ∧
      (putUint32 70000).length = 4 ∧ bigEndian (putUint32 70000) = 70000) :=
  ⟨(writeLength_encoding_rule [] 300).1 (by decide),
   (writeLength_encoding_rule [] 70000).2.1 (by decide) (by decide)⟩

/-- C5 (variable-length boundary law and round trip). For `n < 2 ^ 32`, `readLength`
on the bytes `writeLength` wrote for `n`, followed by any bytes `rest`, returns
`n` and leaves `rest` unread. The length field has 2 bytes for 65534 and 6 bytes
for 65535 and for 65536, and each of the three decodes to itself. -/
theorem varlen_round_trip (fuel : Nat) (n : Nat) (rest : List Byte) (h : n < 2 ^ 32) :
    (writeLength bufferWriter [] n).1 = none ∧
    readLength bufferReader (fuel + 1) ((writeLength bufferWriter [] n).2 ++ rest)
      = (.ok n, rest) ∧
    (writeLength bufferWriter [] 65534).2.length = 2 ∧
    (writeLength bufferWriter [] 65535).2.length = 6 ∧
    (writeLength bufferWriter [] 65536).2.length = 6 ∧
    readLength bufferReader (fuel + 1) (writeLength bufferWriter [] 65534).2 = (.ok 65534, []) ∧
    readLength bufferReader (fuel + 1) (writeLength bufferWriter [] 65535).2 = (.ok 65535, []) ∧
    readLength bufferReader (fuel + 1) (writeLength bufferWriter [] 65536).2 = (.ok 65536, []) := by
  have key : ∀ m : Nat, m < 2 ^ 32 → ∀ r : List Byte,
      readLength bufferReader (fuel + 1) ((writeLength bufferWriter [] m).2 ++ r) = (.ok m, r) := by
    intro m hm r
    exact readLength_VarLen fuel m r hm
  refine ⟨by rw [writeLength_buffer], key n h rest, rfl, rfl, rfl, ?_, ?_, ?_⟩
  · simpa using key 65534 (by norm_num) []
  · simpa using key 65535 (by norm_num) []
  · simpa using key 65536 (by norm_num) []

/-- The round trip of 70000 with three bytes following. -/
theorem varlen_round_trip_witness :
    readLength bufferReader 1 ((writeLength bufferWriter [] 70000).2 ++ [1, 2, 3])
      = (.ok 70000, [1, 2, 3]) :=
  (varlen_round_trip 0 70000 [1, 2, 3] (by decide)).2.1

/-- C6 (variable-length decoding rule). On a stream that starts with the bytes
`b0 b1` of big-endian value `s`: if `s < 0xFFFF`, `readLength` returns `s` and
leaves everything after the two bytes unread; if `s = 0xFFFF` and four more
bytes follow, it returns their big-endian value, whatever it is, and leaves
everything after the six bytes unread. `FF FF 00 00 00 05` decodes to 5. -/
theorem readLength_decoding_rule (fuel : Nat) (b0 b1 : Byte) (rest : List Byte) :
    (b0.val * 256 + b1.val < 65535 →
      readLength bufferReader (fuel + 1) (b0 :: b1 :: rest)
        = (.ok (b0.val * 256 + b1.val), rest)) ∧
    (b0.val * 256 + b1.val = 65535 → ∀ (b2 b3 b4 b5 : Byte) (tail : List Byte),
      readLength bufferReader (fuel + 1) (b0 :: b1 :: b2 :: b3 :: b4 :: b5 :: tail)
        = (.ok (((b2.val * 256 + b3.val) * 256 + b4.val) * 256 + b5.val), tail)) ∧
    readLength bufferReader (fuel + 1) [255, 255, 0, 0, 0, 5] = (.ok 5, []) := by
  refine ⟨fun h => ?_, fun h b2 b3 b4 b5 tail => ?_, ?_⟩
  · have e := readLength_buffer_short_form fuel b0 b1 rest (by rw [bigEndian_two]; exact h)
    rw [bigEndian_two] at e
    exact e
  · have e := readLength_buffer_long_form fuel b0 b1 b2 b3 b4 b5 tail
      (by rw [bigEndian_two]; exact h)
    rw [bigEndian_four] at e
    exact e
  · exact readLength_buffer_long_form fuel 255 255 0 0 0 5 [] (by decide)

/-- The decoding rule on `01 02 ...` (short form) and on `FF FF 00 00 FF FF 07` (long form). -/
theorem readLength_decoding_rule_witness :
    readLength bufferReader 1 [1, 2, 9, 9] = (.ok ((1 : Byte).val * 256 + (2 : Byte).val), [9, 9]) ∧
    readLength bufferReader 1 [255, 255, 0, 0, 255, 255, 7]
      = (.ok ((((0 : Byte).val * 256 + (0 : Byte).val) * 256 + (255 : Byte).val) * 256
          + (255 : Byte).val), [7]) :=
  ⟨(readLength_decoding_rule 0 1 2 [9, 9]).1 (by decide),
   (readLength_decoding_rule 0 255 255 []).2.1 (by decide) 0 0 255 255 [7]⟩

/-- C7 (content codec). For a content `c` (a Go slice, at most `maxAlloc` bytes),
`writeContent` writes the 8 bytes of `len(c)` as a big-endian `uint64` followed
by `c`; the prefix is `00 00 00 00 00 00 FF FF` for length 65535 and
`00 00 00 00 00 01 00 00` for length 65536; and `readContent` on the written
bytes followed by any bytes `rest` returns `c` and leaves `rest` unread. -/
theorem content_codec (fuel : Nat) (out : Buffer) (c rest : List Byte)
    (h : c.length ≤ maxAlloc) :
    writeContent bufferWriter out c = (none, out ++ (putUint64 c.length ++ c)) ∧
    (putUint64 c.length).length = 8 ∧
    bigEndian (putUint64 c.length) = c.length ∧
    putUint64 65535 = [0, 0, 0, 0, 0, 0, 255, 255] ∧
    putUint64 65536 = [0, 0, 0, 0, 0, 1, 0, 0] ∧
    readContent bufferReader (fuel + 1) ((writeContent bufferWriter [] c).2 ++ rest)
      = (.ok c, rest) := by
  have hlt : c.length < 2 ^ 64 := by
    have : maxAlloc < 2 ^ 64 := by unfold maxAlloc; norm_num
    omega
  refine ⟨writeContent_buffer out c, rfl, ?_, by decide, by decide, ?_⟩
  · rw [bigEndian_putUint64]; exact Nat.mod_eq_of_lt hlt
  · rw [writeContent_buffer, List.nil_append]
    exact readContent_buffer_ok fuel c rest h

/-- The content codec on a three-byte content with one byte following. -/
theorem content_codec_witness :
    writeContent bufferWriter [] [7, 8, 9] = (none, [] ++ (putUint64 3 ++ [7, 8, 9])) ∧
    readContent bufferReader 1 ((writeContent bufferWriter [] [7, 8, 9]).2 ++ [1])
      = (.ok [7, 8, 9], [1]) :=
  have h := content_codec 0 [] [7, 8, 9] [1] (by unfold maxAlloc; decide)
  ⟨h.1, h.2.2.2.2.2⟩

/-- C8 (magic rejection). On a stream of at least 7 bytes whose first 7 bytes are not
the magic marker, `Deserialize` returns `badHeaderV3` ("Not a NiFi v3 FlowFile")
and the entity is what it was before the call: attributes and content are
unchanged. The 7 bytes are consumed. -/
theorem magic_rejection (fuel : Nat) (ff : FlowFileV3) (s : Buffer)
    (h7 : 7 ≤ s.length) (hne : s.take 7 ≠ magicHeaderV3) :
    ff.Deserialize bufferReader fuel s
      = (.fail (.returned Error.badHeaderV3), ff, s.drop 7) ∧
    Error.message Error.badHeaderV3 = some "Not a NiFi v3 FlowFile" := by
  refine ⟨?_, rfl⟩
  simp only [FlowFileV3.Deserialize, validateHeader_buffer_bad s h7 hne]

/-- The stream `NiFiFF2 00 00 00 00` is rejected and the entity keeps its state. -/
theorem magic_rejection_witness :
    createFlowFileV3.Deserialize bufferReader 2 (bytesOf "NiFiFF2" ++ [0, 0, 0, 0])
      = (.fail (.returned Error.badHeaderV3), createFlowFileV3,
          (bytesOf "NiFiFF2" ++ [0, 0, 0, 0]).drop 7) :=
  (magic_rejection 2 createFlowFileV3 (bytesOf "NiFiFF2" ++ [0, 0, 0, 0])
    (by decide) (by decide)).1

/-- C9 (truncation detection). Let `ff` be a FlowFile with fewer than `2 ^ 32`
attributes, keys and values shorter than `2 ^ 32` bytes and a content of at most
`maxAlloc` bytes. `Deserialize` on the first `N` bytes of its serialization, for
every `N` smaller than the length of the serialization, returns `io.EOF` or
`io.ErrUnexpectedEOF`; it does not succeed and does not return `badHeaderV3`. -/
theorem truncation_detection (fuel : Nat) (ff t : FlowFileV3) (N : Nat)
    (hn : ff.attributes.length < 2 ^ 32) (hs : shortStrings ff.attributes)
    (hc : ff.content.length ≤ maxAlloc)
    (hN : N < (ff.Serialize bufferWriter []).2.length) :
    ∃ (err : Error) (t2 : FlowFileV3) (s : Buffer),
      t.Deserialize bufferReader (fuel + 2) ((ff.Serialize bufferWriter []).2.take N)
        = (.fail (.returned err), t2, s) ∧
      (err = Error.EOF ∨ err = Error.ErrUnexpectedEOF) ∧ err ≠ Error.badHeaderV3 := by
  rw [Serialize_buffer, List.nil_append] at hN ⊢
  obtain ⟨err, ⟨t2, s⟩, he, ht⟩ :=
    Deserialize_buffer_take fuel t ff.attributes ff.content N hn hs hc hN
  refine ⟨err, t2, s, he, (isTruncated_iff err).1 ht, ?_⟩
  intro hb
  rw [hb] at ht
  exact absurd ht (by decide)

/-- The first 20 bytes of the serialized FlowFile of the test are reported as truncated. -/
theorem truncation_detection_witness :
    ∃ (err : Error) (t2 : FlowFileV3) (s : Buffer),
      NewFlowFileV3.Deserialize bufferReader 2
          ((createFlowFileV3.Serialize bufferWriter []).2.take 20)
        = (.fail (.returned err), t2, s) ∧
      (err = Error.EOF ∨ err = Error.ErrUnexpectedEOF) ∧ err ≠ Error.badHeaderV3 :=
  truncation_detection 0 createFlowFileV3 NewFlowFileV3 20 (by decide)
    (by unfold shortStrings; decide) (by unfold maxAlloc; decide) (by decide)

/-- C10 (duplicate-key policy). On a stream in the layout of the specification
whose pairs repeat a key, `Deserialize` succeeds; the map it stores holds under
every key the value of the last pair with that key, has one entry for each
distinct key of the stream, and so has fewer entries than the encoded count. -/
theorem duplicate_key_last_wins (fuel : Nat) (t : FlowFileV3) (entries : List (Str × Str))
    (content rest : List Byte) (hn : entries.length < 2 ^ 32) (hs : shortStrings entries)
    (hc : content.length ≤ maxAlloc) (hdup : ¬ (entries.map Prod.fst).Nodup) :
    ∃ m : AttrMap,
      t.Deserialize bufferReader (fuel + 1) (wireLayout entries content ++ rest)
        = (.ok (), { attributes := m, content := content }, rest) ∧
      (∀ key, mapGet m key = lastValue entries key) ∧
      (mapKeys m).Nodup ∧
      (∀ key, key ∈ mapKeys m ↔ key ∈ entries.map Prod.fst) ∧
      m.length = (entries.map Prod.fst).toFinset.card ∧
      m.length < entries.length := by
  refine ⟨buildMap entries [], Deserialize_buffer_ok fuel t entries content rest hn hs hc,
    ?_, ?_, ?_, buildMap_length entries, ?_⟩
  · intro key
    rw [mapGet_buildMap]
    cases lastValue entries key <;> rfl
  · exact mapKeys_buildMap_nodup entries [] (by simp [mapKeys])
  · intro key
    rw [mapKeys_buildMap_mem]
    simp [mapKeys]
  · rw [buildMap_length]
    have hle : (entries.map Prod.fst).toFinset.card ≤ (entries.map Prod.fst).length :=
      List.toFinset_card_le _
    have hneq : (entries.map Prod.fst).toFinset.card ≠ (entries.map Prod.fst).length := by
      intro heq
      exact hdup (Multiset.toFinset_card_eq_card_iff_nodup.1 heq)
    rw [List.length_map] at hle hneq
    omega

/-- The key `k` written twice, with the values `a` and `b`. -/
theorem duplicate_key_last_wins_witness :
    ∃ m : AttrMap,
      NewFlowFileV3.Deserialize bufferReader 1
          (wireLayout [(bytesOf "k", bytesOf "a"), (bytesOf "k", bytesOf "b")] [9] ++ [])
        = (.ok (), { attributes := m, content := [9] }, []) ∧
      (∀ key, mapGet m key
        = lastValue [(bytesOf "k", bytesOf "a"), (bytesOf "k", bytesOf "b")] key) ∧
      (mapKeys m).Nodup ∧
      (∀ key, key ∈ mapKeys m
        ↔ key ∈ [(bytesOf "k", bytesOf "a"), (bytesOf "k", bytesOf "b")].map Prod.fst) ∧
      m.length
        = ([(bytesOf "k", bytesOf "a"), (bytesOf "k", bytesOf "b")].map Prod.fst).toFinset.card ∧
      m.length < [(bytesOf "k", bytesOf "a"), (bytesOf "k", bytesOf "b")].length :=
  duplicate_key_last_wins 0 NewFlowFileV3
    [(bytesOf "k", bytesOf "a"), (bytesOf "k", bytesOf "b")] [9] []
    (by decide) (by unfold shortStrings; decide) (by unfold maxAlloc; decide) (by decide)

/-- C11 (partial mutation on content failure). For every reader and every entity:
when the header validates, the attribute section decodes to a map `m` and the
content section fails, `Deserialize` fails the way `readContent` failed (the
error it returned), and the entity then holds the attributes `m` and the
content it had before the call. -/
theorem partial_mutation_on_content_failure {σ : Type} (R : Reader σ) (fuel : Nat)
    (ff : FlowFileV3) (s s1 s2 s3 : σ) (m : AttrMap) (f : Fault)
    (hh : validateHeader R s = (.ok (), s1))
    (ha : readAttributes R fuel s1 = (.ok m, s2))
    (hc : readContent R fuel s2 = (.fail f, s3)) :
    ff.Deserialize R fuel s = (.fail f, { attributes := m, content := ff.content }, s3) ∧
    (ff.Deserialize R fuel s).2.1.attributes = m ∧
    (ff.Deserialize R fuel s).2.1.content = ff.content := by
  have e : ff.Deserialize R fuel s
      = (.fail f, { attributes := m, content := ff.content }, s3) := by
    simp only [FlowFileV3.Deserialize, hh, ha, hc]
  rw [e]
  exact ⟨rfl, rfl, rfl⟩

/-- The stream of the test cut in the middle of the content: the entity that held
the attribute `old` and the content `01 02` ends with the attributes of the
stream and its old content, and `io.EOF` is returned. -/
theorem partial_mutation_on_content_failure_witness :
    ({ attributes := [(bytesOf "old", bytesOf "x")], content := [1, 2] } :
        FlowFileV3).Deserialize bufferReader 2 (createByteBuffer.take 48)
      = (.fail (.returned Error.EOF),
          { attributes := createFlowFileV3.attributes, content := [1, 2] }, []) :=
  (partial_mutation_on_content_failure bufferReader 2
    { attributes := [(bytesOf "old", bytesOf "x")], content := [1, 2] }
    (createByteBuffer.take 48) ((createByteBuffer.take 48).drop 7)
    ((createByteBuffer.take 48).drop 37) [] createFlowFileV3.attributes
    (.returned Error.EOF) (by decide) (by decide) (by decide)).1

/-- C12 (short-read robustness) does not hold of the code. The test's stream,
delivered one byte per `Read` call, is decoded by a `bytes.Buffer` reader but
not by `Deserialize` over the one-byte reader: `validateHeader` takes the
first short read for the end of the stream, returns `io.EOF` and leaves the
entity as it was. The string bytes and the content bytes are read the same
way (`readString`, `readContent` return `io.EOF`), while the length fields,
read through `binary.Read`, are obtained in full. -/
theorem short_read_taken_for_end_of_stream :
    NewFlowFileV3.Deserialize bufferReader 8 createByteBuffer
      = (.ok (), createFlowFileV3, []) ∧
    NewFlowFileV3.Deserialize (shortReader 1) 8 createByteBuffer
      = (.fail (.returned Error.EOF), NewFlowFileV3, createByteBuffer.drop 1) ∧
    readString (shortReader 1) 8 (encodeString (bytesOf "key1"))
      = (.fail (.returned Error.EOF), bytesOf "ey1") ∧
    readContent (shortReader 1) 8 (putUint64 7 ++ bytesOf "content")
      = (.fail (.returned Error.EOF), bytesOf "ontent") ∧
    readLength (shortReader 1) 8 ([255, 255, 0, 1, 0, 0] ++ [9]) = (.ok 65536, [9]) := by
  refine ⟨by decide, by decide, by decide, by decide, by decide⟩

/-- C13 (content length longer than the stream) does not hold of the code for a
declared length beyond what `make` accepts. On the 8 bytes `FF .. FF`
(declared length `2 ^ 64 - 1`, nothing following) `readContent` panics in
`make([]byte, length)` instead of returning an error, and so does
`Deserialize` on an otherwise valid stream with that content length, after it
has replaced the attributes. -/
theorem huge_content_length_panics :
    bigEndian (List.replicate 8 (255 : Byte)) = 2 ^ 64 - 1 ∧
    readContent bufferReader 2 (List.replicate 8 255) = (.fail .panic, []) ∧
    ({ attributes := [(bytesOf "old", bytesOf "x")], content := [1, 2] } :
        FlowFileV3).Deserialize bufferReader 2
        (magicHeaderV3 ++ [0, 0] ++ List.replicate 8 255)
      = (.fail .panic, { attributes := [], content := [1, 2] }, []) := by
  refine ⟨by decide, by decide, by decide⟩

/-- C14 (SetAttributes replaces, GetAttribute looks up). After `SetAttributes(m)` on
any entity, the entity returned (the receiver) has the attributes `m` and the
content it had; `GetAttribute(k)` on it is `(m[k], true)` when `k` is a key of
`m` and `("", false)` otherwise, whatever the attributes were before.
`GetAttribute` has a value receiver and yields only the pair. -/
theorem setAttributes_replaces_getAttribute_looks_up (ff : FlowFileV3) (m : AttrMap)
    (key : Str) :
    (ff.SetAttributes m).GetAttributes = m ∧
    (ff.SetAttributes m).GetContent = ff.GetContent ∧
    (key ∈ mapKeys m → ∃ value, mapGet m key = some value ∧ (key, value) ∈ m ∧
      (ff.SetAttributes m).GetAttribute key = (value, true)) ∧
    (key ∉ mapKeys m → (ff.SetAttributes m).GetAttribute key = ([], false)) := by
  refine ⟨rfl, rfl, fun h => ?_, fun h => ?_⟩
  · cases hg : mapGet m key with
    | none => exact absurd h ((mapGet_eq_none_iff m key).1 hg)
    | some value =>
      refine ⟨value, rfl, mapGet_mem m key value hg, ?_⟩
      simp [FlowFileV3.GetAttribute, FlowFileV3.SetAttributes, hg]
  · have hg := (mapGet_eq_none_iff m key).2 h
    simp [FlowFileV3.GetAttribute, FlowFileV3.SetAttributes, hg]

/-- On the FlowFile of the test after `SetAttributes` with the one pair `key1 ↦ new`:
`key1` is found with the new value, `key2` is no longer found. -/
theorem setAttributes_replaces_getAttribute_looks_up_witness :
    (∃ value, mapGet [(bytesOf "key1", bytesOf "new")] (bytesOf "key1") = some value ∧
      (bytesOf "key1", value) ∈ [(bytesOf "key1", bytesOf "new")] ∧
      (createFlowFileV3.SetAttributes [(bytesOf "key1", bytesOf "new")]).GetAttribute
        (bytesOf "key1") = (value, true)) ∧
    (createFlowFileV3.SetAttributes [(bytesOf "key1", bytesOf "new")]).GetAttribute
      (bytesOf "key2") = ([], false) :=
  ⟨(setAttributes_replaces_getAttribute_looks_up createFlowFileV3
      [(bytesOf "key1", bytesOf "new")] (bytesOf "key1")).2.2.1 (by decide),
   (setAttributes_replaces_getAttribute_looks_up createFlowFileV3
      [(bytesOf "key1", bytesOf "new")] (bytesOf "key2")).2.2.2 (by decide)⟩

/-- C15 (short header is truncation, not mismatch). On a `bytes.Buffer` with fewer
than 7 bytes, whatever they are, `validateHeader` returns `io.EOF`, not
`badHeaderV3`. On a buffer with at least 7 bytes it consumes exactly 7 bytes
and returns nil exactly when they are the magic marker, `badHeaderV3`
otherwise. -/
theorem short_header_is_truncation (b : Buffer) :
    (b.length < 7 →
      validateHeader bufferReader b = (.fail (.returned Error.EOF), []) ∧
      (validateHeader bufferReader b).1 ≠ .fail (.returned Error.badHeaderV3)) ∧
    (7 ≤ b.length →
      (validateHeader bufferReader b).2 = b.drop 7 ∧
      ((validateHeader bufferReader b).1 = .ok () ↔ b.take 7 = magicHeaderV3) ∧
      (b.take 7 ≠ magicHeaderV3 →
        (validateHeader bufferReader b).1 = .fail (.returned Error.badHeaderV3))) := by
  refine ⟨fun h => ?_, fun h => ?_⟩
  · rw [validateHeader_buffer_short b h]
    exact ⟨rfl, by decide⟩
  · by_cases hm : b.take 7 = magicHeaderV3
    · have hb : b = magicHeaderV3 ++ b.drop 7 := by
        rw [← hm, List.take_append_drop]
      have e := validateHeader_buffer_ok (b.drop 7)
      rw [← hb] at e
      rw [e]
      exact ⟨rfl, ⟨fun _ => hm, fun _ => rfl⟩, fun hne => absurd hm hne⟩
    · rw [validateHeader_buffer_bad b h hm]
      refine ⟨rfl, ⟨fun hok => ?_, fun heq => absurd heq hm⟩, fun _ => rfl⟩
      simp at hok

/-- The three bytes `XYZ` give `io.EOF`; the stream of the test passes the check and
its first 7 bytes are consumed. -/
theorem short_header_is_truncation_witness :
    (validateHeader bufferReader (bytesOf "XYZ") = (.fail (.returned Error.EOF), []) ∧
      (validateHeader bufferReader (bytesOf "XYZ")).1 ≠ .fail (.returned Error.badHeaderV3)) ∧
    ((validateHeader bufferReader createByteBuffer).2 = createByteBuffer.drop 7 ∧
      ((validateHeader bufferReader createByteBuffer).1 = .ok ()
        ↔ createByteBuffer.take 7 = magicHeaderV3) ∧
      (createByteBuffer.take 7 ≠ magicHeaderV3 →
        (validateHeader bufferReader createByteBuffer).1
          = .fail (.returned Error.badHeaderV3))) :=
  ⟨(short_header_is_truncation (bytesOf "XYZ")).1 (by decide),
   (short_header_is_truncation createByteBuffer).2 (by decide)⟩

/-- C16 (over-declared attribute count). On a `bytes.Buffer` whose count field
decodes to `n` (in either form) and whose remaining bytes do not supply `n`
complete key/value pairs, `readAttributes` returns `io.EOF` or
`io.ErrUnexpectedEOF` and no map; `n` is not compared with the length of the
stream beforehand. Keys and values of length 0 count as complete strings. -/
theorem over_declared_attribute_count (fuel : Nat) (stream body : List Byte) (n : Nat)
    (hcount : splitLength stream = some (n, body))
    (hshort : completePairs n body = false) :
    ∃ (err : Error) (s : Buffer),
      readAttributes bufferReader (fuel + 2) stream = (.fail (.returned err), s) ∧
      (err = Error.EOF ∨ err = Error.ErrUnexpectedEOF) := by
  have e : readLength bufferReader (fuel + 2) stream = (.ok n, body) :=
    (readLength_of_splitLength (fuel + 1) stream body n hcount).1
  obtain ⟨err, s, he, ht⟩ := readAttributesLoop_incomplete fuel n body [] hshort
  exact ⟨err, s, by simp [readAttributes, e, he], (isTruncated_iff err).1 ht⟩

/-- The count `FF FF FF FF FF FF` (`2 ^ 32 - 1` pairs) followed by one complete pair
with an empty key and an empty value, and nothing else. -/
theorem over_declared_attribute_count_witness :
    ∃ (err : Error) (s : Buffer),
      readAttributes bufferReader 2 ([255, 255, 255, 255, 255, 255] ++ [0, 0, 0, 0])
        = (.fail (.returned err), s) ∧
      (err = Error.EOF ∨ err = Error.ErrUnexpectedEOF) :=
  over_declared_attribute_count 0 ([255, 255, 255, 255, 255, 255] ++ [0, 0, 0, 0])
    [0, 0, 0, 0] (2 ^ 32 - 1) (by decide) (by decide)

/-- C17 (failure before the content step is atomic). For every reader and every
entity: when `validateHeader` fails, or when it succeeds and `readAttributes`
fails (`readAttributes` yields no map then, however many pairs it had decoded),
`Deserialize` fails the same way and the entity is what it was before the
call, attributes and content. -/
theorem failure_before_content_is_atomic {σ : Type} (R : Reader σ) (fuel : Nat)
    (ff : FlowFileV3) (s s1 s2 : σ) (f : Fault) :
    (validateHeader R s = (.fail f, s1) → ff.Deserialize R fuel s = (.fail f, ff, s1)) ∧
    (validateHeader R s = (.ok (), s1) → readAttributes R fuel s1 = (.fail f, s2) →
      ff.Deserialize R fuel s = (.fail f, ff, s2)) := by
  refine ⟨fun hh => ?_, fun hh ha => ?_⟩
  · simp only [FlowFileV3.Deserialize, hh]
  · simp only [FlowFileV3.Deserialize, hh, ha]

/-- The empty stream fails in the header; the stream of the test cut after its first
pair and the length of the second key fails in the attribute section. In both
cases the FlowFile of the test, used as the target, is unchanged. -/
theorem failure_before_content_is_atomic_witness :
    createFlowFileV3.Deserialize bufferReader 2 []
      = (.fail (.returned Error.EOF), createFlowFileV3, []) ∧
    NewFlowFileV3.Deserialize bufferReader 2 (createByteBuffer.take 25)
      = (.fail (.returned Error.EOF), NewFlowFileV3, []) :=
  ⟨(failure_before_content_is_atomic bufferReader 2 createFlowFileV3 [] [] []
      (.returned Error.EOF)).1 (by decide),
   (failure_before_content_is_atomic bufferReader 2 NewFlowFileV3 (createByteBuffer.take 25)
      ((createByteBuffer.take 25).drop 7) [] (.returned Error.EOF)).2 (by decide) (by decide)⟩

/-- C18 (exact consumption and trailing bytes). Let `ff` have fewer than `2 ^ 32`
attributes, keys and values shorter than `2 ^ 32` bytes and a content of at most
`maxAlloc` bytes, and let `s` be its serialization. `Deserialize` on `s`
followed by any bytes `trailing` succeeds with the attributes and content it
yields on `s` alone, and leaves exactly `trailing`, the bytes after the first
`len(s)`, unread in the buffer. -/
theorem exact_consumption_trailing_bytes (fuel : Nat) (ff target : FlowFileV3)
    (trailing : List Byte) (hn : ff.attributes.length < 2 ^ 32)
    (hs : shortStrings ff.attributes) (hc : ff.content.length ≤ maxAlloc) :
    ∃ t2 : FlowFileV3,
      target.Deserialize bufferReader (fuel + 1) ((ff.Serialize bufferWriter []).2 ++ trailing)
        = (.ok (), t2, trailing) ∧
      target.Deserialize bufferReader (fuel + 1) (ff.Serialize bufferWriter []).2
        = (.ok (), t2, []) ∧
      trailing = ((ff.Serialize bufferWriter []).2 ++ trailing).drop
        (ff.Serialize bufferWriter []).2.length ∧
      t2.content = ff.content := by
  rw [Serialize_buffer, List.nil_append]
  refine ⟨⟨buildMap ff.attributes [], ff.content⟩,
    Deserialize_buffer_ok fuel target ff.attributes ff.content trailing hn hs hc, ?_, ?_, rfl⟩
  · have e := Deserialize_buffer_ok fuel target ff.attributes ff.content [] hn hs hc
    rw [List.append_nil] at e
    exact e
  · rw [List.drop_left]

/-- The serialized FlowFile of the test followed by the two bytes `2A 2B`. -/
theorem exact_consumption_trailing_bytes_witness :
    ∃ t2 : FlowFileV3,
      NewFlowFileV3.Deserialize bufferReader 1
          ((createFlowFileV3.Serialize bufferWriter []).2 ++ [42, 43])
        = (.ok (), t2, [42, 43]) ∧
      NewFlowFileV3.Deserialize bufferReader 1 (createFlowFileV3.Serialize bufferWriter []).2
        = (.ok (), t2, []) ∧
      [42, 43] = ((createFlowFileV3.Serialize bufferWriter []).2 ++ [42, 43]).drop
        (createFlowFileV3.Serialize bufferWriter []).2.length ∧
      t2.content = createFlowFileV3.content :=
  exact_consumption_trailing_bytes 0 createFlowFileV3 NewFlowFileV3 [42, 43]
    (by decide) (by unfold shortStrings; decide) (by unfold maxAlloc; decide)

/-- C19 (serialized size). The number of bytes `Serialize` writes is
`7 + w(n) + sum of (w(|k|) + |k| + w(|v|) + |v|) + 8 + |c|` with `w(x) = 2` for
`x < 65535` and `6` otherwise; it is the same for every order in which the
pairs are iterated, and it is 17 for a new FlowFile. -/
theorem serialized_size (ff : FlowFileV3) :
    (ff.Serialize bufferWriter []).2.length
      = 7 + lengthFieldSize ff.attributes.length + (ff.attributes.map pairSize).sum
          + 8 + ff.content.length ∧
    (∀ x, lengthFieldSize x = if x < 65535 then 2 else 6) ∧
    (∀ kv : Str × Str, pairSize kv
      = lengthFieldSize kv.1.length + kv.1.length + lengthFieldSize kv.2.length + kv.2.length) ∧
    (∀ order : List (Str × Str), order.Perm ff.attributes →
      (({ attributes := order, content := ff.content } : FlowFileV3).Serialize
          bufferWriter []).2.length
        = (ff.Serialize bufferWriter []).2.length) ∧
    (NewFlowFileV3.Serialize bufferWriter []).2.length = 17 := by
  refine ⟨?_, fun _ => rfl, fun _ => rfl, fun order hp => ?_, by decide⟩
  · rw [Serialize_buffer, List.nil_append, wireLayout_length, serializedSize]
  · rw [Serialize_buffer, Serialize_buffer, List.nil_append, List.nil_append,
      wireLayout_length, wireLayout_length, serializedSize, serializedSize,
      hp.length_eq, (hp.map pairSize).sum_eq]

/-- The FlowFile of the test written with its two pairs in the other order. -/
theorem serialized_size_witness :
    (({ attributes := [(bytesOf "key2", bytesOf "value2"), (bytesOf "key1", bytesOf "value1")],
        content := createFlowFileV3.content } : FlowFileV3).Serialize bufferWriter []).2.length
      = (createFlowFileV3.Serialize bufferWriter []).2.length :=
  (serialized_size createFlowFileV3).2.2.2.1
    [(bytesOf "key2", bytesOf "value2"), (bytesOf "key1", bytesOf "value1")]
    (List.Perm.swap _ _ [])

/-- C20 (length overflow wraps modulo `2 ^ 32`). For `n ≥ 2 ^ 32`, `writeLength`
returns no error and writes `FF FF` and the big-endian `uint32` of
`n mod 2 ^ 32`; `readLength` on the written bytes returns `n mod 2 ^ 32`, which
is not `n`. For every `k`, the written length field decodes to `k` exactly
when `k < 2 ^ 32`. -/
theorem length_overflow_wraps (fuel : Nat) (out : Buffer) (n : Nat) (rest : List Byte)
    (h : 2 ^ 32 ≤ n) :
    writeLength bufferWriter out n = (none, out ++ ([255, 255] ++ putUint32 (n % 2 ^ 32))) ∧
    bigEndian (putUint32 (n % 2 ^ 32)) = n % 2 ^ 32 ∧
    readLength bufferReader (fuel + 1) ((writeLength bufferWriter [] n).2 ++ rest)
      = (.ok (n % 2 ^ 32), rest) ∧
    n % 2 ^ 32 ≠ n ∧
    (∀ k : Nat, readLength bufferReader (fuel + 1) ((writeLength bufferWriter [] k).2 ++ rest)
      = (.ok k, rest) ↔ k < 2 ^ 32) := by
  have hmod : n % 2 ^ 32 ≠ n := by
    intro e
    have := Nat.mod_lt n (show 0 < 2 ^ 32 by norm_num)
    omega
  refine ⟨?_, ?_, ?_, hmod, fun k => ⟨fun hk => ?_, fun hk => ?_⟩⟩
  · rw [writeLength_buffer, VarLen_long n (by omega)]
  · rw [bigEndian_putUint32]; omega
  · rw [writeLength_buffer, List.nil_append]
    exact readLength_VarLen_wrap fuel n rest (by omega)
  · by_contra hge
    rw [writeLength_buffer, List.nil_append,
      readLength_VarLen_wrap fuel k rest (by omega)] at hk
    simp only [Prod.mk.injEq, Outcome.ok.injEq, and_true] at hk
    have := Nat.mod_lt k (show 0 < 2 ^ 32 by norm_num)
    omega
  · rw [writeLength_buffer, List.nil_append]
    exact readLength_VarLen fuel k rest hk

/-- The length `2 ^ 32 + 5` is written as `FF FF 00 00 00 05` and read back as 5. -/
theorem length_overflow_wraps_witness :
    writeLength bufferWriter [] (2 ^ 32 + 5)
      = (none, [] ++ ([255, 255] ++ putUint32 ((2 ^ 32 + 5) % 2 ^ 32))) ∧
    readLength bufferReader 1 ((writeLength bufferWriter [] (2 ^ 32 + 5)).2 ++ [7])
      = (.ok ((2 ^ 32 + 5) % 2 ^ 32), [7]) ∧
    (2 ^ 32 + 5) % 2 ^ 32 ≠ 2 ^ 32 + 5 :=
  have h := length_overflow_wraps 0 [] (2 ^ 32 + 5) [7] (by norm_num)
  ⟨h.1, h.2.2.1, h.2.2.2.1⟩

end flowfile
